import Mathlib

/-!
Verification development for the brand-identity-generator repository.

This file gives a shallow embedding, in Lean 4, of the logo-compositing and
vector-tracing subsystem of the repository:

* `src/utils/vectorize.ts` — binary mask builder (`imageToBitmap`), contour
  tracer (`bitmapToSvgPaths`), vector document assembler (`pngToSvg`);
* `src/components/LogoCompositor.tsx` — layout engine (`renderLogo`) and the
  variation orchestrator (`LogoVariationsGenerator` / `handleExport`);
* the retry wrapper `withRetry` of the collaborator service module.

JavaScript numbers that only ever hold exact small quantities are embedded as
`ℚ` (layout geometry, luminance) or `ℕ`/`ℤ` (pixel coordinates, delays); the
flood-fill's imperative `visited` matrix is embedded as a `Finset` of cells
(JavaScript array assignment is unbounded, so set insertion is the faithful
model); the stack-based while loop is embedded with an explicit fuel that is
provably sufficient.  Fallible or asynchronous boundaries (image decode) are
abstracted into the already-decoded `ImageData` argument.
-/

set_option maxRecDepth 4000

namespace BrandGen

/-! ## Data model: decoded raster samples (vectorize.ts, `ImageData`) -/

/-- Decoded raster image: `width`, `height`, and the flat RGBA channel list
`data`, four entries per pixel, as produced by `ctx.getImageData`. -/
structure ImageData where
  width : ℕ
  height : ℕ
  data : List ℕ

/-- Channel access `data[idx]`; a read past the end of a JavaScript array
yields `undefined`, which the arithmetic treats as 0 here (such a pixel is
never foreground either way). -/
def chan (d : List ℕ) (idx : ℕ) : ℕ := d.getD idx 0

/-- Luminance formula of vectorize.ts line 60:
`0.299 * r + 0.587 * g + 0.114 * b`. -/
def luminance (r g b : ℕ) : ℚ := 0.299 * r + 0.587 * g + 0.114 * b

/-- One iteration body of the `imageToBitmap` double loop
(vectorize.ts lines 52-63): channel reads at `(y * width + x) * 4`,
then `a > 128 && luminance < threshold`. -/
def pixelIsBlack (img : ImageData) (threshold : ℚ) (x y : ℕ) : Bool :=
  let idx := (y * img.width + x) * 4
  let r := chan img.data idx
  let g := chan img.data (idx + 1)
  let b := chan img.data (idx + 2)
  let a := chan img.data (idx + 3)
  decide (a > 128) && decide (luminance r g b < threshold)

/-- Binary mask builder `imageToBitmap` (vectorize.ts lines 46-67): a
`height × width` grid of booleans, row-major. -/
def imageToBitmap (img : ImageData) (threshold : ℚ) : List (List Bool) :=
  (List.range img.height).map fun y =>
    (List.range img.width).map fun x => pixelIsBlack img threshold x y

/-! ## Contour tracer (vectorize.ts, `bitmapToSvgPaths`, lines 100-162) -/

/-- Mask cell read `bitmap[y][x]`: out-of-range reads are `undefined`,
hence falsy. -/
def getCell (bm : List (List Bool)) (x y : ℕ) : Bool :=
  (bm.getD y []).getD x false

/-- Mask height `bitmap.length`. -/
def bmHeight (bm : List (List Bool)) : ℕ := bm.length

/-- Mask width `bitmap[0]?.length || 0`. -/
def bmWidth (bm : List (List Bool)) : ℕ := (bm.headD []).length

/-- The scanned grid of cell coordinates, as a finite set. -/
def grid (w h : ℕ) : Finset (ℕ × ℕ) := Finset.range w ×ˢ Finset.range h

/-- Fuel bound for the flood-fill while loop: each loop iteration either
discards a stack entry or marks one unvisited in-grid cell while pushing
four neighbours, so `4·|unvisited grid cells| + |stack|` iterations always
suffice. -/
def floodFuel (w h : ℕ) (visited : Finset (ℕ × ℕ)) (stack : List (ℤ × ℤ)) : ℕ :=
  4 * ((grid w h) \ visited).card + stack.length

/-- The stack-based flood-fill while loop of vectorize.ts lines 114-126.
Stack entries are signed pairs (the source pushes `cx - 1` and `cy - 1`,
which can be negative); the top of the stack is the list head, matching
`stack.pop()` taking the most recently pushed entry.  Marked cells go into
the `visited` set and are appended to `region` in discovery order. -/
def floodLoop (bm : List (List Bool)) (w h : ℕ) :
    ℕ → Finset (ℕ × ℕ) → List (ℤ × ℤ) → List (ℤ × ℤ) →
      List (ℤ × ℤ) × Finset (ℕ × ℕ)
  | _, visited, [], region => (region, visited)
  | 0, visited, _ :: _, region => (region, visited)
  | fuel + 1, visited, (cx, cy) :: rest, region =>
    if cx < 0 ∨ (w : ℤ) ≤ cx ∨ cy < 0 ∨ (h : ℤ) ≤ cy then
      floodLoop bm w h fuel visited rest region
    else if (cx.toNat, cy.toNat) ∈ visited ∨ getCell bm cx.toNat cy.toNat = false then
      floodLoop bm w h fuel visited rest region
    else
      floodLoop bm w h fuel (insert (cx.toNat, cy.toNat) visited)
        ((cx, cy - 1) :: (cx, cy + 1) :: (cx - 1, cy) :: (cx + 1, cy) :: rest)
        (region ++ [(cx, cy)])

/-- One region detection (vectorize.ts lines 111-126): flood fill from a
scan cell with an initially empty region and a one-entry stack. -/
def floodRegion (bm : List (List Bool)) (w h : ℕ) (visited : Finset (ℕ × ℕ))
    (x y : ℕ) : List (ℤ × ℤ) × Finset (ℕ × ℕ) :=
  floodLoop bm w h (floodFuel w h visited [((x : ℤ), (y : ℤ))]) visited
    [((x : ℤ), (y : ℤ))] []

/-- `Math.min(...region.map(...))` on a nonempty list. -/
def listMinI : List ℤ → ℤ
  | [] => 0
  | x :: xs => xs.foldl min x

/-- `Math.max(...region.map(...))` on a nonempty list. -/
def listMaxI : List ℤ → ℤ
  | [] => 0
  | x :: xs => xs.foldl max x

/-- The inclusive integer range `[lo, hi]` traversed by the source's
`for` loops over bounding-box coordinates. -/
def intRange (lo hi : ℤ) : List ℤ :=
  (List.range (hi + 1 - lo).toNat).map fun (i : ℕ) => lo + (i : ℤ)

/-- Run-length predicate of vectorize.ts line 142:
`rx <= maxX && region.some(p => p.x === rx && p.y === ry)`. -/
def runIsBlack (region : List (ℤ × ℤ)) (maxX ry rx : ℤ) : Bool :=
  decide (rx ≤ maxX) && region.any fun p => p.1 == rx && p.2 == ry

/-- Loop body of the per-row run scan (vectorize.ts lines 142-149); state is
`(inRun, runStart, pathData)`. -/
def runStep (region : List (ℤ × ℤ)) (maxX ry : ℤ) (st : Bool × ℤ × String)
    (rx : ℤ) : Bool × ℤ × String :=
  if runIsBlack region maxX ry rx && !st.1 then
    (true, rx, st.2.2)
  else if !(runIsBlack region maxX ry rx) && st.1 then
    (false, st.2.1,
      st.2.2 ++ "M" ++ toString st.2.1 ++ "," ++ toString ry ++ "h" ++
        toString (rx - st.2.1) ++ "v1h" ++ toString (st.2.1 - rx) ++ "z")
  else st

/-- One row of the run-length scan (vectorize.ts lines 139-150): `rx` runs
from `minX` to `maxX + 1` inclusive with `inRun = false`, `runStart = 0`. -/
def rowRuns (region : List (ℤ × ℤ)) (minX maxX ry : ℤ) (acc : String) : String :=
  ((intRange minX (maxX + 1)).foldl (runStep region maxX ry) (false, 0, acc)).2.2

/-- Path data of one region (vectorize.ts lines 131-151): bounding box, then
row-by-row run-length emission. -/
def regionPathData (region : List (ℤ × ℤ)) : String :=
  let minX := listMinI (region.map Prod.fst)
  let maxX := listMaxI (region.map Prod.fst)
  let minY := listMinI (region.map Prod.snd)
  let maxY := listMaxI (region.map Prod.snd)
  (intRange minY maxY).foldl (fun acc ry => rowRuns region minX maxX ry acc) ""

/-- The `<path>` element wrapper of vectorize.ts line 154. -/
def pathElem (pathData color : String) : String :=
  "<path d=\"" ++ pathData ++ "\" fill=\"" ++ color ++ "\"/>"

/-- Body of the outer scan loop (vectorize.ts lines 107-159) for a single
cell: skip visited or background cells, otherwise flood-fill a region and,
when it has more than 10 cells and nonempty path data, append its path. -/
def traceCell (bm : List (List Bool)) (w h : ℕ) (color : String)
    (st : Finset (ℕ × ℕ) × List String) (c : ℕ × ℕ) :
    Finset (ℕ × ℕ) × List String :=
  if getCell bm c.1 c.2 = true ∧ (c.1, c.2) ∉ st.1 then
    if 10 < (floodRegion bm w h st.1 c.1 c.2).1.length then
      if regionPathData (floodRegion bm w h st.1 c.1 c.2).1 ≠ "" then
        ((floodRegion bm w h st.1 c.1 c.2).2,
          st.2 ++ [pathElem
            (regionPathData (floodRegion bm w h st.1 c.1 c.2).1) color])
      else ((floodRegion bm w h st.1 c.1 c.2).2, st.2)
    else ((floodRegion bm w h st.1 c.1 c.2).2, st.2)
  else st

/-- Row-major scan order of the nested loops of vectorize.ts lines 107-108. -/
def scanCells (w h : ℕ) : List (ℕ × ℕ) :=
  ((List.range h).map fun y => (List.range w).map fun x => (x, y)).flatten

/-- Contour tracer `bitmapToSvgPaths` (vectorize.ts lines 100-162). -/
def bitmapToSvgPaths (bm : List (List Bool)) (color : String) : List String :=
  ((scanCells (bmWidth bm) (bmHeight bm)).foldl
    (traceCell bm (bmWidth bm) (bmHeight bm) color) (∅, [])).2

/-! ## Instrumented tracer

`traceCellRec` runs exactly the computation of `traceCell` but additionally
records, for every emitted path, the scan cell at which its region was first
discovered.  It is used to state the ordering half of the determinism claim. -/

/-- Instrumented variant of `traceCell`: the extra component records each
emitted path together with the scan cell that discovered its region. -/
def traceCellRec (bm : List (List Bool)) (w h : ℕ) (color : String)
    (st : (Finset (ℕ × ℕ) × List String) × List ((ℕ × ℕ) × String))
    (c : ℕ × ℕ) :
    (Finset (ℕ × ℕ) × List String) × List ((ℕ × ℕ) × String) :=
  if getCell bm c.1 c.2 = true ∧ (c.1, c.2) ∉ st.1.1 then
    if 10 < (floodRegion bm w h st.1.1 c.1 c.2).1.length then
      if regionPathData (floodRegion bm w h st.1.1 c.1 c.2).1 ≠ "" then
        (((floodRegion bm w h st.1.1 c.1 c.2).2,
            st.1.2 ++ [pathElem
              (regionPathData (floodRegion bm w h st.1.1 c.1 c.2).1) color]),
          st.2 ++ [(c, pathElem
            (regionPathData (floodRegion bm w h st.1.1 c.1 c.2).1) color)])
      else (((floodRegion bm w h st.1.1 c.1 c.2).2, st.1.2), st.2)
    else (((floodRegion bm w h st.1.1 c.1 c.2).2, st.1.2), st.2)
  else st

/-- The instrumented trace of a whole mask. -/
def bitmapToSvgPathsRec (bm : List (List Bool)) (color : String) :
    (Finset (ℕ × ℕ) × List String) × List ((ℕ × ℕ) × String) :=
  (scanCells (bmWidth bm) (bmHeight bm)).foldl
    (traceCellRec bm (bmWidth bm) (bmHeight bm) color) ((∅, []), [])

/-! ## Vector document assembly (vectorize.ts, `pngToSvg`, lines 167-189) -/

/-- Trace options record of vectorize.ts lines 11-16. -/
structure TraceOptions where
  threshold : Option ℚ
  turnPolicy : Option String
  turdSize : Option ℕ
  optTolerance : Option ℚ

/-- The SVG document template of vectorize.ts lines 178-182. -/
def svgDocument (w h : ℕ) (paths : List String) : String :=
  "<?xml version=\"1.0\" encoding=\"UTF-8\"?>\n<svg xmlns=\"http://www.w3.org/2000/svg\" viewBox=\"0 0 "
    ++ toString w ++ " " ++ toString h ++ "\" width=\"" ++ toString w
    ++ "\" height=\"" ++ toString h ++ "\">\n  <title>Vectorized Logo</title>\n  "
    ++ String.intercalate "\n  " paths ++ "\n</svg>"

/-- Pure core of `pngToSvg` (vectorize.ts lines 167-189), taking the decoded
image in place of the awaited data URL: destructures only `threshold`
(default 128) from the options, builds the mask, traces it with the default
color `#000000`, and assembles the document. -/
def pngToSvg (img : ImageData) (options : TraceOptions) : String :=
  let threshold := options.threshold.getD 128
  let bitmap := imageToBitmap img threshold
  let paths := bitmapToSvgPaths bitmap "#000000"
  svgDocument img.width img.height paths

/-! ## Logo layout engine (LogoCompositor.tsx, `renderLogo`, lines 88-188) -/

/-- The three canonical layouts (LogoCompositor.tsx line 3). -/
inductive LogoLayout
  | horizontal
  | vertical
  | iconOnly
deriving DecidableEq, Repr

/-- Canvas text anchor values; `start` is the canvas default, used when the
code never sets an anchor. -/
inductive TextAlign
  | start
  | left
  | right
  | center
deriving DecidableEq, Repr

/-- Canvas text baseline values; `alphabetic` is the canvas default. -/
inductive TextBaseline
  | alphabetic
  | middle
  | top
deriving DecidableEq, Repr

/-- `CANVAS_CONFIGS` (LogoCompositor.tsx lines 29-33). -/
def canvasConfig : LogoLayout → ℚ × ℚ
  | .horizontal => (800, 200)
  | .vertical => (400, 400)
  | .iconOnly => (300, 300)

/-- Everything `renderLogo` decides before rasterizing: canvas size, icon
placement, and (when text is drawn) font size, anchor point, alignment,
baseline, and whether the text was drawn before the icon. -/
structure RenderedLogo where
  canvasWidth : ℚ
  canvasHeight : ℚ
  iconX : ℚ
  iconY : ℚ
  iconSize : ℚ
  hasText : Bool
  fontSize : ℚ
  textX : ℚ
  textY : ℚ
  textAlign : TextAlign
  textBaseline : TextBaseline
  textDrawnFirst : Bool

/-- Geometry computation of `renderLogo` (LogoCompositor.tsx lines 105-177).
`measure fontSize name` stands for `ctx.measureText(name).width` after
`ctx.font` was set to bold `fontSize`-pixel text in the configured family —
font metrics are an external input, so they are a parameter here. -/
def renderLogo (measure : ℚ → String → ℚ) (companyName : String)
    (layout : LogoLayout) (isRtl : Bool) : RenderedLogo :=
  let cw := (canvasConfig layout).1
  let ch := (canvasConfig layout).2
  match layout with
  | .iconOnly =>
    let iconSize := min cw ch * 0.8
    { canvasWidth := cw, canvasHeight := ch
      iconX := (cw - iconSize) / 2, iconY := (ch - iconSize) / 2
      iconSize := iconSize, hasText := false, fontSize := 0
      textX := 0, textY := 0, textAlign := .start
      textBaseline := .alphabetic, textDrawnFirst := false }
  | .horizontal =>
    let iconSize := ch * 0.7
    let padding : ℚ := 30
    let textFontSize := min 48 (ch * 0.25)
    let textWidth := measure textFontSize companyName
    let totalWidth := iconSize + padding + textWidth
    let startX := (cw - totalWidth) / 2
    if isRtl then
      { canvasWidth := cw, canvasHeight := ch
        iconX := startX, iconY := (ch - iconSize) / 2
        iconSize := iconSize, hasText := true, fontSize := textFontSize
        textX := cw - startX, textY := ch / 2, textAlign := .right
        textBaseline := .middle, textDrawnFirst := true }
    else
      { canvasWidth := cw, canvasHeight := ch
        iconX := startX, iconY := (ch - iconSize) / 2
        iconSize := iconSize, hasText := true, fontSize := textFontSize
        textX := startX + iconSize + padding, textY := ch / 2
        textAlign := .left, textBaseline := .middle, textDrawnFirst := false }
  | .vertical =>
    let iconSize := cw * 0.5
    let padding : ℚ := 20
    let textFontSize := min 36 (cw * 0.12)
    let iconX := (cw - iconSize) / 2
    let iconY := ch * 0.15
    { canvasWidth := cw, canvasHeight := ch
      iconX := iconX, iconY := iconY
      iconSize := iconSize, hasText := true, fontSize := textFontSize
      textX := cw / 2, textY := iconY + iconSize + padding
      textAlign := .center, textBaseline := .top, textDrawnFirst := false }

/-! ## Variation orchestrator (LogoCompositor.tsx, lines 222-305) -/

/-- The partial variation record held in the `variations` state. -/
structure Variations where
  horizontal : Option String
  vertical : Option String
  iconOnly : Option String
deriving DecidableEq, Repr

/-- The empty initial state `{}`. -/
def Variations.empty : Variations := ⟨none, none, none⟩

/-- The computed-key update of LogoCompositor.tsx line 239:
`{ ...prev, [layout === 'icon-only' ? 'iconOnly' : layout]: dataUrl }`. -/
def setVariation (v : Variations) (layout : LogoLayout) (dataUrl : String) :
    Variations :=
  match layout with
  | .horizontal => { v with horizontal := some dataUrl }
  | .vertical => { v with vertical := some dataUrl }
  | .iconOnly => { v with iconOnly := some dataUrl }

/-- `handleExport` (LogoCompositor.tsx lines 237-252) as a state transition:
updates the variation record and, when all three keys are populated, appends
one invocation of `onVariationsGenerated` to the firing log. -/
def handleExport (st : Variations × List (String × String × String))
    (ev : LogoLayout × String) : Variations × List (String × String × String) :=
  let updated := setVariation st.1 ev.1 ev.2
  match updated.horizontal, updated.vertical, updated.iconOnly with
  | some hz, some vt, some ic => (updated, st.2 ++ [(hz, vt, ic)])
  | _, _, _ => (updated, st.2)

/-- A sequence of export completions processed in order, starting from the
empty record with no firings. -/
def runExports (events : List (LogoLayout × String)) :
    Variations × List (String × String × String) :=
  events.foldl handleExport (Variations.empty, [])

/-- JavaScript string disjunction `a || b` (the empty string is falsy). -/
def jsOrString (a b : String) : String := if a = "" then b else a

/-- The icon reference resolution of LogoCompositor.tsx line 233:
`identity.logoMark || identity.logoImage || ''`. -/
def generatorIconUrl (logoMark logoImage : Option String) : String :=
  jsOrString (logoMark.getD "") (jsOrString (logoImage.getD "") "")

/-- Render output of `LogoVariationsGenerator` (LogoCompositor.tsx lines
254-303): `none` models the early `return null` on an empty icon reference;
otherwise the three mounted compositors, each with the resolved icon URL. -/
def generatorJobs (logoMark logoImage : Option String) :
    Option (List (LogoLayout × String)) :=
  let iconUrl := generatorIconUrl logoMark logoImage
  if iconUrl = "" then none
  else
    some [(.horizontal, iconUrl), (.vertical, iconUrl), (.iconOnly, iconUrl)]

/-! ## Retry wrapper (`withRetry`, service module lines 253-266) -/

/-- The `status` field of a thrown service error: a number, a string, or
absent. -/
inductive JsStatus
  | num (n : ℕ)
  | str (s : String)
  | undef
deriving DecidableEq, Repr

/-- A thrown service error: `status` and an optional `message`. -/
structure JsError where
  status : JsStatus
  message : Option String
deriving DecidableEq, Repr

/-- `message.includes('overloaded')`: the substring occurs iff splitting on
it yields more than one piece. -/
def hasOverloaded (m : String) : Bool :=
  decide (1 < (m.splitOn "overloaded").length)

/-- The transient-error test of the service module line 258:
`error.status === 503 || error.status === 'UNAVAILABLE' ||
(error.message && error.message.includes('overloaded'))`. -/
def isTransientError (e : JsError) : Bool :=
  e.status == .num 503 || e.status == .str "UNAVAILABLE" ||
    (match e.message with
     | some m => hasOverloaded m
     | none => false)

/-- `withRetry` (service module lines 253-266).  `fn k` is the outcome of
the `k`-th invocation of the wrapped thunk; the result pairs the value or
final error with the list of backoff delays slept, in order.  A failure is
retried exactly when `retries > 0` and the error is transient, with the
delay doubling each time. -/
def withRetry {α : Type} (fn : ℕ → Except JsError α) :
    ℕ → ℕ → ℕ → Except JsError α × List ℕ
  | 0, k, _ => (fn k, [])
  | retries + 1, k, delay =>
    match fn k with
    | .ok v => (.ok v, [])
    | .error e =>
      if isTransientError e then
        let rr := withRetry fn retries (k + 1) (delay * 2)
        (rr.1, delay :: rr.2)
      else (.error e, [])

/-! ## Derived notions used to state the claims -/

/-- The grid cell named by a stack entry, as `visited[cy][cx]` indexes it
(signed coordinates clamped to `ℕ`; only applied to in-bounds entries). -/
def cellOf (p : ℤ × ℤ) : ℕ × ℕ := (p.1.toNat, p.2.toNat)

/-- A stack entry that passes the bounds test of vectorize.ts line 116. -/
def validP (w h : ℕ) (p : ℤ × ℤ) : Prop :=
  0 ≤ p.1 ∧ p.1 < (w : ℤ) ∧ 0 ≤ p.2 ∧ p.2 < (h : ℤ)

/-- The foreground cells of a mask inside the scanned `w × h` grid. -/
def fgFinset (bm : List (List Bool)) (w h : ℕ) : Finset (ℕ × ℕ) :=
  (grid w h).filter fun c => getCell bm c.1 c.2 = true

/-- 4-neighbourhood inside the `w × h` grid (successor form avoids natural
subtraction). -/
def adjN (w h : ℕ) (a b : ℕ × ℕ) : Prop :=
  b.1 < w ∧ b.2 < h ∧
    ((b.1 = a.1 + 1 ∧ b.2 = a.2) ∨ (a.1 = b.1 + 1 ∧ b.2 = a.2) ∨
     (b.2 = a.2 + 1 ∧ b.1 = a.1) ∨ (a.2 = b.2 + 1 ∧ b.1 = a.1))

/-- One 4-connectivity step between two in-grid foreground cells. -/
def fgAdj (bm : List (List Bool)) (w h : ℕ) (u v : ℕ × ℕ) : Prop :=
  u.1 < w ∧ u.2 < h ∧ getCell bm u.1 u.2 = true ∧ getCell bm v.1 v.2 = true ∧
    adjN w h u v

/-- 4-connectivity of foreground cells (reflexive-transitive closure of
single steps): the notion of "same connected region" of the spec. -/
def Reach (bm : List (List Bool)) (w h : ℕ) (a b : ℕ × ℕ) : Prop :=
  Relation.ReflTransGen (fgAdj bm w h) a b

/-- Row-major scan order on cells: strictly earlier row, or same row and
strictly smaller column. -/
def scanLt (a b : ℕ × ℕ) : Prop := a.2 < b.2 ∨ (a.2 = b.2 ∧ a.1 < b.1)

/-- The all-background mask of a given size. -/
def blankMask (w h : ℕ) : List (List Bool) :=
  List.replicate h (List.replicate w false)

/-- The all-foreground mask of a given size. -/
def fullMask (w h : ℕ) : List (List Bool) :=
  List.replicate h (List.replicate w true)

/-- A 100×100 fully-opaque black image: every pixel has channels
`(0, 0, 0, 255)`. -/
def blackSquareImg : ImageData :=
  ⟨100, 100, (List.range 40000).map fun i => if i % 4 = 3 then 255 else 0⟩

/-- The full-width row strip command emitted for row `ry` of the traced
100×100 black square: `M0,(ry)h100v1h-100z`. -/
def rowStrip (ry : ℤ) : String :=
  "M0," ++ toString ry ++ "h100v1h-100z"

/-- A single-row mask with `n` foreground cells (one connected region). -/
def rowMask (n : ℕ) : List (List Bool) := [List.replicate n true]

/-! # Theorems -/

/-! ## Basic indexing lemmas -/

theorem getD_map_range {α : Type} (f : ℕ → α) (d : α) {i n : ℕ} (hi : i < n) :
    (((List.range n).map f).getD i d) = f i := by
  rw [List.getD_eq_getElem?_getD, List.getElem?_map, List.getElem?_range hi]
  rfl

theorem getD_map_range_ge {α : Type} (f : ℕ → α) (d : α) {i n : ℕ} (hi : n ≤ i) :
    (((List.range n).map f).getD i d) = d := by
  rw [List.getD_eq_getElem?_getD, List.getElem?_map]
  rw [List.getElem?_eq_none (by simpa using hi)]
  rfl

theorem getCell_imageToBitmap (img : ImageData) (T : ℚ) {x y : ℕ}
    (hx : x < img.width) (hy : y < img.height) :
    getCell (imageToBitmap img T) x y = pixelIsBlack img T x y := by
  unfold getCell imageToBitmap
  rw [getD_map_range _ _ hy, getD_map_range _ _ hx]

/-- Claim C1 — `imageToBitmap` produces a mask of the image's dimensions, and
a cell `(x, y)` is `true` exactly when the pixel's alpha channel exceeds 128
and the luminance `0.299·R + 0.587·G + 0.114·B` of that pixel's channels is
strictly below the threshold. -/
theorem imageToBitmap_spec (img : ImageData) (T : ℚ) :
    (imageToBitmap img T).length = img.height ∧
    (∀ row ∈ imageToBitmap img T, row.length = img.width) ∧
    (∀ x y : ℕ, x < img.width → y < img.height →
      (getCell (imageToBitmap img T) x y = true ↔
        128 < chan img.data ((y * img.width + x) * 4 + 3) ∧
          luminance (chan img.data ((y * img.width + x) * 4))
            (chan img.data ((y * img.width + x) * 4 + 1))
            (chan img.data ((y * img.width + x) * 4 + 2)) < T)) := by
  refine ⟨by simp [imageToBitmap], ?_, ?_⟩
  · intro row hrow
    unfold imageToBitmap at hrow
    obtain ⟨y, _, rfl⟩ := List.mem_map.mp hrow
    simp
  · intro x y hx hy
    rw [getCell_imageToBitmap img T hx hy]
    unfold pixelIsBlack
    simp only [Bool.and_eq_true, decide_eq_true_eq]

/-- Witness for C1 at a concrete one-pixel image: the single pixel of
`⟨1, 1, [0, 0, 0, 255]⟩` is foreground at threshold 128. -/
theorem imageToBitmap_spec_witness :
    getCell (imageToBitmap ⟨1, 1, [0, 0, 0, 255]⟩ 128) 0 0 = true ↔
      128 < chan [0, 0, 0, 255] 3 ∧ luminance (chan [0, 0, 0, 255] 0)
        (chan [0, 0, 0, 255] 1) (chan [0, 0, 0, 255] 2) < 128 := by
  have h := (imageToBitmap_spec ⟨1, 1, [0, 0, 0, 255]⟩ 128).2.2 0 0
    (by decide) (by decide)
  simpa using h

/-! ## Claims C4 and C5 — horizontal layout geometry -/

/-- Claim C4 — horizontal LTR layout on the 800×200 canvas: icon size is 70%
of the canvas height (140), font size is `min 48 (0.25·height)` = 48, the
composed width is `iconSize + 30 + measured text width`, the icon's left edge
is `(800 − totalWidth)/2`, and the text is drawn left-anchored at
`iconX + iconSize + 30` with middle baseline at half the canvas height. -/
theorem renderLogo_horizontal_ltr_spec (measure : ℚ → String → ℚ)
    (name : String) :
    (renderLogo measure name .horizontal false).canvasWidth = 800 ∧
    (renderLogo measure name .horizontal false).canvasHeight = 200 ∧
    (renderLogo measure name .horizontal false).iconSize = 140 ∧
    (renderLogo measure name .horizontal false).iconSize = 200 * 0.7 ∧
    (renderLogo measure name .horizontal false).fontSize = min 48 (200 * 0.25) ∧
    (renderLogo measure name .horizontal false).fontSize = 48 ∧
    (renderLogo measure name .horizontal false).iconX =
      (800 - (140 + 30 + measure 48 name)) / 2 ∧
    (renderLogo measure name .horizontal false).textX =
      (renderLogo measure name .horizontal false).iconX + 140 + 30 ∧
    (renderLogo measure name .horizontal false).textAlign = .left ∧
    (renderLogo measure name .horizontal false).textBaseline = .middle ∧
    (renderLogo measure name .horizontal false).textY = 200 / 2 := by
  unfold renderLogo canvasConfig
  norm_num

/-- Counterexample to claim C5 — with measured text width 100, the RTL run
of the horizontal layout places the icon strictly to the LEFT of the text
(the icon's right edge, 405, is below the text's left edge,
`textX − textWidth = 435`), contradicting "the icon sits to the right of the
text in RTL mode". -/
theorem renderLogo_rtl_icon_not_right_of_text :
    (renderLogo (fun _ _ => 100) "Acme" .horizontal true).iconX +
        (renderLogo (fun _ _ => 100) "Acme" .horizontal true).iconSize <
      (renderLogo (fun _ _ => 100) "Acme" .horizontal true).textX - 100 ∧
    (renderLogo (fun _ _ => 100) "Acme" .horizontal true).iconX = 265 ∧
    (renderLogo (fun _ _ => 100) "Acme" .horizontal true).iconSize = 140 ∧
    (renderLogo (fun _ _ => 100) "Acme" .horizontal true).textX = 535 := by
  unfold renderLogo canvasConfig
  norm_num

/-- Claim C5 as amended — for the same icon, name and font metrics on the
800×200 horizontal canvas, `isRtl = true` versus `false` yields identical
canvas dimensions and identical icon placement (the icon is left of the text
in BOTH modes, with the text occupying the same span); the modes differ only
in the text anchor (right-aligned at `canvasWidth − startX` versus
left-aligned at `iconX + iconSize + 30`, the same occupied interval) and in
the text being drawn before the icon in RTL mode. -/
theorem renderLogo_rtl_vs_ltr (measure : ℚ → String → ℚ) (name : String) :
    (renderLogo measure name .horizontal true).canvasWidth =
      (renderLogo measure name .horizontal false).canvasWidth ∧
    (renderLogo measure name .horizontal true).canvasHeight =
      (renderLogo measure name .horizontal false).canvasHeight ∧
    (renderLogo measure name .horizontal true).iconX =
      (renderLogo measure name .horizontal false).iconX ∧
    (renderLogo measure name .horizontal true).iconY =
      (renderLogo measure name .horizontal false).iconY ∧
    (renderLogo measure name .horizontal true).textAlign = .right ∧
    (renderLogo measure name .horizontal false).textAlign = .left ∧
    (renderLogo measure name .horizontal true).textX - measure 48 name =
      (renderLogo measure name .horizontal false).textX ∧
    (renderLogo measure name .horizontal false).textX =
      (renderLogo measure name .horizontal false).iconX +
        (renderLogo measure name .horizontal false).iconSize + 30 ∧
    (renderLogo measure name .horizontal true).textDrawnFirst = true ∧
    (renderLogo measure name .horizontal false).textDrawnFirst = false := by
  unfold renderLogo canvasConfig
  norm_num
  ring

/-! ## Claim C10 — unused trace options -/

/-- Claim C10 — `pngToSvg` destructures only `threshold` from its options:
two option records that agree on `threshold` produce identical SVG output,
whatever their `turnPolicy`, `turdSize` and `optTolerance`. -/
theorem pngToSvg_ignores_unused_options (img : ImageData)
    (o₁ o₂ : TraceOptions) (h : o₁.threshold = o₂.threshold) :
    pngToSvg img o₁ = pngToSvg img o₂ := by
  unfold pngToSvg
  rw [h]

/-- Witness for C10 at concrete inputs: a 1×1 image with options differing
in `turdSize` and `turnPolicy` but not `threshold`. -/
theorem pngToSvg_ignores_unused_options_witness :
    pngToSvg ⟨1, 1, [0, 0, 0, 255]⟩ ⟨none, none, some 2, none⟩ =
      pngToSvg ⟨1, 1, [0, 0, 0, 255]⟩ ⟨none, some "black", none, some 1⟩ :=
  pngToSvg_ignores_unused_options _ _ _ rfl

/-! ## Claim C9 — the retry wrapper -/

theorem withRetry_succ_unfold {α : Type} (fn : ℕ → Except JsError α)
    (r k d : ℕ) :
    withRetry fn (r + 1) k d =
      (match fn k with
       | .ok v => ((.ok v : Except JsError α), ([] : List ℕ))
       | .error e =>
         if isTransientError e then
           ((withRetry fn r (k + 1) (d * 2)).1,
             d :: (withRetry fn r (k + 1) (d * 2)).2)
         else (.error e, [])) := rfl

theorem geom_delays_cons (d n : ℕ) :
    (List.range (n + 1)).map (fun i => d * 2 ^ i) =
      d :: (List.range n).map (fun i => d * 2 * 2 ^ i) := by
  rw [List.range_succ_eq_map, List.map_cons, List.map_map]
  refine congrArg₂ _ (by norm_num) (List.map_congr_left ?_)
  intro i _
  simp only [Function.comp_apply, pow_succ]
  ring

theorem withRetry_general {α : Type} (fn : ℕ → Except JsError α) :
    ∀ (r k d : ℕ),
      (withRetry fn r k d).2.length ≤ r ∧
      (withRetry fn r k d).2 =
        (List.range (withRetry fn r k d).2.length).map (fun i => d * 2 ^ i) ∧
      (withRetry fn r k d).1 = fn (k + (withRetry fn r k d).2.length) ∧
      (∀ j < (withRetry fn r k d).2.length,
        ∃ e, fn (k + j) = .error e ∧ isTransientError e = true) ∧
      (∀ e, fn (k + (withRetry fn r k d).2.length) = .error e →
        isTransientError e = true → (withRetry fn r k d).2.length = r) := by
  intro r
  induction r with
  | zero =>
    intro k d
    refine ⟨Nat.le_refl 0, rfl, by simp [withRetry], ?_, ?_⟩
    · intro j hj
      exact absurd hj (by simp [withRetry])
    · intro e _ _
      simp [withRetry]
  | succ r ih =>
    intro k d
    by_cases hfn : ∃ e, fn k = .error e
    · obtain ⟨e, he⟩ := hfn
      by_cases htr : isTransientError e = true
      · have hunf : withRetry fn (r + 1) k d =
            ((withRetry fn r (k + 1) (d * 2)).1,
              d :: (withRetry fn r (k + 1) (d * 2)).2) := by
          rw [withRetry_succ_unfold, he]
          simp [htr]
        obtain ⟨ih1, ih2, ih3, ih4, ih5⟩ := ih (k + 1) (d * 2)
        rw [hunf]
        refine ⟨by simpa using Nat.succ_le_succ ih1, ?_, ?_, ?_, ?_⟩
        · rw [List.length_cons, geom_delays_cons]
          exact congrArg _ ih2
        · simp only [List.length_cons]
          rw [ih3]
          exact congrArg _ (by omega)
        · intro j hj
          match j with
          | 0 => exact ⟨e, he, htr⟩
          | j + 1 =>
            have := ih4 j (by simpa using hj)
            simpa [Nat.add_comm, Nat.add_assoc, Nat.add_left_comm] using this
        · intro e₂ he₂ htr₂
          simp only [List.length_cons]
          have he₃ : fn (k + 1 + (withRetry fn r (k + 1) (d * 2)).2.length) =
              .error e₂ := by
            rw [show k + 1 + (withRetry fn r (k + 1) (d * 2)).2.length =
              k + ((withRetry fn r (k + 1) (d * 2)).2.length + 1) by omega]
            exact he₂
          have := ih5 e₂ he₃ htr₂
          omega
      · have hunf : withRetry fn (r + 1) k d = (.error e, []) := by
          rw [withRetry_succ_unfold, he]
          simp [htr]
        rw [hunf]
        refine ⟨Nat.zero_le _, rfl, by simpa using he.symm, ?_, ?_⟩
        · intro j hj
          exact absurd hj (by simp)
        · intro e₂ he₂ htr₂
          simp only [List.length_nil, Nat.add_zero] at he₂
          rw [he] at he₂
          cases he₂
          exact absurd htr₂ htr
    · have hok : ∃ v, fn k = .ok v := by
        cases h : fn k with
        | ok v => exact ⟨v, rfl⟩
        | error e => exact absurd ⟨e, h⟩ hfn
      obtain ⟨v, hv⟩ := hok
      have hunf : withRetry fn (r + 1) k d = (.ok v, []) := by
        rw [withRetry_succ_unfold, hv]
      rw [hunf]
      refine ⟨Nat.zero_le _, rfl, by simpa using hv.symm, ?_, ?_⟩
      · intro j hj
        exact absurd hj (by simp)
      · intro e₂ he₂ _
        simp only [List.length_nil, Nat.add_zero] at he₂
        rw [hv] at he₂
        cases he₂

/-- Claim C9 — the retry wrapper at its call configuration
(`retries = 3`, `delay = 1000`): it performs at most 3 retries; the delays
slept are exactly the corresponding prefix of 1000, 2000, 4000 ms; the final
outcome — success or error — is the verbatim outcome of the last call made;
every retry was preceded by a transient error (status 503, status
"UNAVAILABLE", or a message containing "overloaded"); and it only ever stops
on a transient error when the 3 retries are exhausted.  Hence a call is
retried exactly when its error is transient and retries remain, and
non-transient or exhausted errors propagate unchanged. -/
theorem withRetry_spec {α : Type} (fn : ℕ → Except JsError α) :
    (withRetry fn 3 0 1000).2.length ≤ 3 ∧
    (withRetry fn 3 0 1000).2 =
      [1000, 2000, 4000].take (withRetry fn 3 0 1000).2.length ∧
    (withRetry fn 3 0 1000).1 = fn (withRetry fn 3 0 1000).2.length ∧
    (∀ j < (withRetry fn 3 0 1000).2.length,
      ∃ e, fn j = .error e ∧ isTransientError e = true) ∧
    (∀ e, fn (withRetry fn 3 0 1000).2.length = .error e →
      isTransientError e = true → (withRetry fn 3 0 1000).2.length = 3) := by
  obtain ⟨h1, h2, h3, h4, h5⟩ := withRetry_general fn 3 0 1000
  refine ⟨h1, ?_, by simpa using h3, by simpa using h4, by simpa using h5⟩
  rw [h2]
  interval_cases h : (withRetry fn 3 0 1000).2.length <;> decide

/-- Witness for C9: a thunk that always fails with status 503 is retried
three times with delays 1000, 2000, 4000 and its last error propagates. -/
theorem withRetry_spec_witness :
    (withRetry (fun _ => (.error ⟨.num 503, none⟩ : Except JsError ℕ)) 3 0
        1000).2 =
      [1000, 2000, 4000].take
        (withRetry (fun _ => (.error ⟨.num 503, none⟩ : Except JsError ℕ)) 3 0
          1000).2.length ∧
    (withRetry (fun _ => (.error ⟨.num 503, none⟩ : Except JsError ℕ)) 3 0
        1000).1 =
      (fun _ => (.error ⟨.num 503, none⟩ : Except JsError ℕ))
        (withRetry (fun _ => (.error ⟨.num 503, none⟩ : Except JsError ℕ)) 3 0
          1000).2.length :=
  ⟨(withRetry_spec (fun _ => (.error ⟨.num 503, none⟩ : Except JsError ℕ))).2.1,
   (withRetry_spec (fun _ => (.error ⟨.num 503, none⟩ : Except JsError ℕ))).2.2.1⟩

/-! ## Claim C6 — the variation orchestrator -/

theorem perm_pair {α : Type} {p q x y : α} (h : [p, q].Perm [x, y]) :
    (p = x ∧ q = y) ∨ (p = y ∧ q = x) := by
  have hp : p ∈ [x, y] := h.mem_iff.mp (by simp)
  simp only [List.mem_cons, List.mem_singleton, List.not_mem_nil, or_false]
    at hp
  rcases hp with hp | hp
  · subst hp
    left
    have hq := (h.cons_inv).mem_iff.mp (show q ∈ [q] by simp)
    simp only [List.mem_singleton] at hq
    exact ⟨rfl, hq⟩
  · subst hp
    right
    have h₂ : [p, q].Perm [p, x] := h.trans (List.Perm.swap p x [])
    have hq := (h₂.cons_inv).mem_iff.mp (show q ∈ [q] by simp)
    simp only [List.mem_singleton] at hq
    exact ⟨rfl, hq⟩

theorem perm_three {α : Type} {e₁ e₂ e₃ a b c : α}
    (h : [e₁, e₂, e₃].Perm [a, b, c]) :
    (e₁ = a ∧ e₂ = b ∧ e₃ = c) ∨ (e₁ = a ∧ e₂ = c ∧ e₃ = b) ∨
    (e₁ = b ∧ e₂ = a ∧ e₃ = c) ∨ (e₁ = b ∧ e₂ = c ∧ e₃ = a) ∨
    (e₁ = c ∧ e₂ = a ∧ e₃ = b) ∨ (e₁ = c ∧ e₂ = b ∧ e₃ = a) := by
  have h₁ : e₁ ∈ [a, b, c] := h.mem_iff.mp (by simp)
  simp only [List.mem_cons, List.mem_singleton, List.not_mem_nil, or_false]
    at h₁
  rcases h₁ with h₁ | h₁ | h₁
  · subst h₁
    rcases perm_pair h.cons_inv with ⟨h₂, h₃⟩ | ⟨h₂, h₃⟩
    · exact Or.inl ⟨rfl, h₂, h₃⟩
    · exact Or.inr (Or.inl ⟨rfl, h₂, h₃⟩)
  · subst h₁
    have h' : [e₁, e₂, e₃].Perm [e₁, a, c] := h.trans (List.Perm.swap e₁ a [c])
    rcases perm_pair h'.cons_inv with ⟨h₂, h₃⟩ | ⟨h₂, h₃⟩
    · exact Or.inr (Or.inr (Or.inl ⟨rfl, h₂, h₃⟩))
    · exact Or.inr (Or.inr (Or.inr (Or.inl ⟨rfl, h₂, h₃⟩)))
  · subst h₁
    have h' : [e₁, e₂, e₃].Perm [e₁, a, b] :=
      h.trans ((List.Perm.cons a (List.Perm.swap e₁ b [])).trans
        (List.Perm.swap e₁ a [b]))
    rcases perm_pair h'.cons_inv with ⟨h₂, h₃⟩ | ⟨h₂, h₃⟩
    · exact Or.inr (Or.inr (Or.inr (Or.inr (Or.inl ⟨rfl, h₂, h₃⟩))))
    · exact Or.inr (Or.inr (Or.inr (Or.inr (Or.inr ⟨rfl, h₂, h₃⟩))))

/-- Claim C6 — for any interleaving order of the three successful layout
exports, the completion callback fires exactly once, only on the third
export, with all three keys populated (`horizontal`, `vertical`, `iconOnly`
in that payload order); and an empty icon reference makes the orchestrator a
no-op that renders nothing. -/
theorem variations_orchestration (u₁ u₂ u₃ : String)
    (events : List (LogoLayout × String))
    (hperm : events.Perm
      [(.horizontal, u₁), (.vertical, u₂), (.iconOnly, u₃)]) :
    (runExports events).2 = [(u₁, u₂, u₃)] ∧
    (runExports (events.take 1)).2 = [] ∧
    (runExports (events.take 2)).2 = [] ∧
    (∀ logoMark logoImage : Option String,
      generatorIconUrl logoMark logoImage = "" →
      generatorJobs logoMark logoImage = none) := by
  have hlast : ∀ logoMark logoImage : Option String,
      generatorIconUrl logoMark logoImage = "" →
      generatorJobs logoMark logoImage = none := by
    intro lm li hurl
    simp [generatorJobs, hurl]
  match events, hperm.length_eq, hperm with
  | [e₁, e₂, e₃], _, hperm =>
    rcases perm_three hperm with
      ⟨h₁, h₂, h₃⟩ | ⟨h₁, h₂, h₃⟩ | ⟨h₁, h₂, h₃⟩ | ⟨h₁, h₂, h₃⟩ |
      ⟨h₁, h₂, h₃⟩ | ⟨h₁, h₂, h₃⟩ <;>
    · subst h₁ h₂ h₃
      refine ⟨?_, ?_, ?_, hlast⟩ <;>
        simp [runExports, handleExport, setVariation, Variations.empty]

/-- Witness for C6: the interleaving vertical → icon-only → horizontal fires
exactly once with the full set, and an absent icon reference renders
nothing. -/
theorem variations_orchestration_witness :
    (runExports [(.vertical, "v"), (.iconOnly, "i"), (.horizontal, "h")]).2 =
      [("h", "v", "i")] ∧
    (runExports ([((.vertical : LogoLayout), "v"), (.iconOnly, "i"),
      (.horizontal, "h")].take 1)).2 = [] ∧
    (runExports ([((.vertical : LogoLayout), "v"), (.iconOnly, "i"),
      (.horizontal, "h")].take 2)).2 = [] ∧
    generatorJobs none none = none := by
  have h := variations_orchestration "h" "v" "i"
    [(.vertical, "v"), (.iconOnly, "i"), (.horizontal, "h")] (by decide)
  exact ⟨h.1, h.2.1, h.2.2.1, h.2.2.2 none none rfl⟩

/-! ## Mask access lemmas -/

theorem getCell_replicate (b : Bool) (w h x y : ℕ) :
    getCell (List.replicate h (List.replicate w b)) x y =
      if x < w ∧ y < h then b else false := by
  have hrow : (List.replicate h (List.replicate w b)).getD y [] =
      if y < h then List.replicate w b else [] := by
    rw [List.getD_eq_getElem?_getD, List.getElem?_replicate]
    by_cases hy : y < h <;> simp [hy]
  unfold getCell
  rw [hrow]
  by_cases hy : y < h
  · simp only [hy, if_true]
    rw [List.getD_eq_getElem?_getD, List.getElem?_replicate]
    by_cases hx : x < w
    · simp [hx, hy]
    · simp [hx]
  · simp [hy]

theorem chan_replicate_zero (n i : ℕ) : chan (List.replicate n 0) i = 0 := by
  unfold chan
  rw [List.getD_eq_getElem?_getD, List.getElem?_replicate]
  by_cases hi : i < n <;> simp [hi]

theorem getCell_imageToBitmap_all_false (img : ImageData) (T : ℚ)
    (hall : ∀ x y, pixelIsBlack img T x y = false) (x y : ℕ) :
    getCell (imageToBitmap img T) x y = false := by
  by_cases hy : y < img.height
  · by_cases hx : x < img.width
    · rw [getCell_imageToBitmap img T hx hy]
      exact hall x y
    · unfold getCell imageToBitmap
      rw [getD_map_range _ _ hy, getD_map_range_ge _ _ (Nat.le_of_not_lt hx)]
  · unfold getCell imageToBitmap
    rw [getD_map_range_ge _ _ (Nat.le_of_not_lt hy)]
    rfl

/-! ## The scan loop skips background and visited cells -/

theorem foldl_traceCell_bg (bm : List (List Bool)) (w h : ℕ) (color : String)
    (hbg : ∀ x y, getCell bm x y = false) :
    ∀ (cells : List (ℕ × ℕ)) (st : Finset (ℕ × ℕ) × List String),
      cells.foldl (traceCell bm w h color) st = st := by
  intro cells
  induction cells with
  | nil => intro st; rfl
  | cons c cs ih =>
    intro st
    rw [List.foldl_cons]
    have hc : traceCell bm w h color st c = st := by
      unfold traceCell
      simp [hbg c.1 c.2]
    rw [hc]
    exact ih st

theorem foldl_traceCellRec_bg (bm : List (List Bool)) (w h : ℕ)
    (color : String) (hbg : ∀ x y, getCell bm x y = false) :
    ∀ (cells : List (ℕ × ℕ))
      (st : (Finset (ℕ × ℕ) × List String) × List ((ℕ × ℕ) × String)),
      cells.foldl (traceCellRec bm w h color) st = st := by
  intro cells
  induction cells with
  | nil => intro st; rfl
  | cons c cs ih =>
    intro st
    rw [List.foldl_cons]
    have hc : traceCellRec bm w h color st c = st := by
      unfold traceCellRec
      simp [hbg c.1 c.2]
    rw [hc]
    exact ih st

/-- Claim C7 — tracing an all-background mask discovers zero regions and
produces an empty path list, and the assembled SVG document still declares
the source raster's exact width and height while containing no path
elements (the right-hand template has the empty paths section). -/
theorem blank_mask_trace_spec (w h : ℕ) :
    (bitmapToSvgPathsRec (blankMask w h) "#000000").2 = [] ∧
    bitmapToSvgPaths (blankMask w h) "#000000" = [] ∧
    pngToSvg ⟨w, h, List.replicate (4 * w * h) 0⟩ ⟨none, none, none, none⟩ =
      svgDocument w h [] ∧
    svgDocument w h [] =
      "<?xml version=\"1.0\" encoding=\"UTF-8\"?>\n<svg xmlns=\"http://www.w3.org/2000/svg\" viewBox=\"0 0 "
        ++ toString w ++ " " ++ toString h ++ "\" width=\"" ++ toString w
        ++ "\" height=\"" ++ toString h
        ++ "\">\n  <title>Vectorized Logo</title>\n  \n</svg>" := by
  have hbg : ∀ x y, getCell (blankMask w h) x y = false := by
    intro x y
    unfold blankMask
    rw [getCell_replicate]
    by_cases hc : x < w ∧ y < h <;> simp [hc]
  refine ⟨?_, ?_, ?_, ?_⟩
  · unfold bitmapToSvgPathsRec
    rw [foldl_traceCellRec_bg _ _ _ _ hbg]
  · unfold bitmapToSvgPaths
    rw [foldl_traceCell_bg _ _ _ _ hbg]
  · unfold pngToSvg
    have hmask : ∀ x y,
        getCell (imageToBitmap ⟨w, h, List.replicate (4 * w * h) 0⟩ 128) x y =
          false := by
      refine getCell_imageToBitmap_all_false _ _ ?_
      intro x y
      simp [pixelIsBlack, chan_replicate_zero]
    show svgDocument w h
        (bitmapToSvgPaths
          (imageToBitmap ⟨w, h, List.replicate (4 * w * h) 0⟩ 128) "#000000") =
      svgDocument w h []
    unfold bitmapToSvgPaths
    rw [foldl_traceCell_bg _ _ _ _ hmask]
  · unfold svgDocument
    rw [show String.intercalate "\n  " ([] : List String) = "" from rfl,
      String.append_empty, String.append_assoc]
    rfl

/-! ## Flood-fill soundness: regions are made of distinct in-grid
foreground cells -/

theorem floodLoop_cons_unfold (bm : List (List Bool)) (w h fuel : ℕ)
    (visited : Finset (ℕ × ℕ)) (cx cy : ℤ) (rest : List (ℤ × ℤ))
    (region : List (ℤ × ℤ)) :
    floodLoop bm w h (fuel + 1) visited ((cx, cy) :: rest) region =
      if cx < 0 ∨ (w : ℤ) ≤ cx ∨ cy < 0 ∨ (h : ℤ) ≤ cy then
        floodLoop bm w h fuel visited rest region
      else if (cx.toNat, cy.toNat) ∈ visited ∨
          getCell bm cx.toNat cy.toNat = false then
        floodLoop bm w h fuel visited rest region
      else
        floodLoop bm w h fuel (insert (cx.toNat, cy.toNat) visited)
          ((cx, cy - 1) :: (cx, cy + 1) :: (cx - 1, cy) :: (cx + 1, cy) :: rest)
          (region ++ [(cx, cy)]) := rfl

theorem floodLoop_extension (bm : List (List Bool)) (w h : ℕ) :
    ∀ (fuel : ℕ) (visited : Finset (ℕ × ℕ)) (stack : List (ℤ × ℤ))
      (region : List (ℤ × ℤ)),
      ∃ t : List (ℤ × ℤ),
        (floodLoop bm w h fuel visited stack region).1 = region ++ t ∧
        (floodLoop bm w h fuel visited stack region).2 =
          visited ∪ (t.map cellOf).toFinset ∧
        (∀ p ∈ t, validP w h p ∧ getCell bm p.1.toNat p.2.toNat = true ∧
          cellOf p ∉ visited) ∧
        (t.map cellOf).Nodup := by
  intro fuel
  induction fuel with
  | zero =>
    intro visited stack region
    refine ⟨[], ?_, ?_, by simp, by simp⟩ <;> cases stack <;> simp [floodLoop]
  | succ fuel ih =>
    intro visited stack region
    match stack with
    | [] => exact ⟨[], by simp [floodLoop], by simp [floodLoop], by simp, by simp⟩
    | (cx, cy) :: rest =>
      rw [floodLoop_cons_unfold]
      split_ifs with h1 h2
      · exact ih visited rest region
      · exact ih visited rest region
      · push_neg at h1 h2
        obtain ⟨hv1, hv2, hv3, hv4⟩ := h1
        obtain ⟨hnv, hfg⟩ := h2
        have hfg' : getCell bm cx.toNat cy.toNat = true :=
          Bool.not_eq_false _ |>.mp hfg
        obtain ⟨t', ht1, ht2, ht3, ht4⟩ := ih (insert (cx.toNat, cy.toNat) visited)
          ((cx, cy - 1) :: (cx, cy + 1) :: (cx - 1, cy) :: (cx + 1, cy) :: rest)
          (region ++ [(cx, cy)])
        refine ⟨(cx, cy) :: t', ?_, ?_, ?_, ?_⟩
        · rw [ht1]
          simp
        · rw [ht2, List.map_cons, List.toFinset_cons, Finset.insert_union,
            Finset.union_insert]
          rfl
        · intro p hp
          rcases List.mem_cons.mp hp with rfl | hp'
          · exact ⟨⟨hv1, hv2, hv3, hv4⟩, hfg', hnv⟩
          · obtain ⟨hval, hfgp, hnvp⟩ := ht3 p hp'
            exact ⟨hval, hfgp, fun hmem => hnvp (Finset.mem_insert_of_mem hmem)⟩
        · rw [List.map_cons, List.nodup_cons]
          refine ⟨?_, ht4⟩
          intro hmem
          obtain ⟨p, hp, hcp⟩ := List.mem_map.mp hmem
          exact (ht3 p hp).2.2 (hcp ▸ Finset.mem_insert_self _ _)

theorem floodRegion_spec (bm : List (List Bool)) (w h : ℕ)
    (visited : Finset (ℕ × ℕ)) (x y : ℕ) :
    (floodRegion bm w h visited x y).2 =
      visited ∪ (((floodRegion bm w h visited x y).1.map cellOf).toFinset) ∧
    (∀ p ∈ (floodRegion bm w h visited x y).1,
      validP w h p ∧ getCell bm p.1.toNat p.2.toNat = true ∧
        cellOf p ∉ visited) ∧
    ((floodRegion bm w h visited x y).1.map cellOf).Nodup := by
  obtain ⟨t, ht1, ht2, ht3, ht4⟩ := floodLoop_extension bm w h
    (floodFuel w h visited [((x : ℤ), (y : ℤ))]) visited
    [((x : ℤ), (y : ℤ))] []
  unfold floodRegion
  rw [List.nil_append] at ht1
  rw [ht1]
  exact ⟨ht2, ht3, ht4⟩

theorem cellOf_mem_fgFinset (bm : List (List Bool)) (w h : ℕ) {p : ℤ × ℤ}
    (hval : validP w h p) (hfg : getCell bm p.1.toNat p.2.toNat = true) :
    cellOf p ∈ fgFinset bm w h := by
  obtain ⟨h1, h2, h3, h4⟩ := hval
  obtain ⟨p1, p2⟩ := p
  simp only [cellOf] at hfg ⊢
  refine Finset.mem_filter.mpr ⟨Finset.mem_product.mpr ⟨?_, ?_⟩, hfg⟩
  · exact Finset.mem_range.mpr (by simp at h1 h2 ⊢; omega)
  · exact Finset.mem_range.mpr (by simp at h3 h4 ⊢; omega)

theorem floodRegion_length_le (bm : List (List Bool)) (w h : ℕ)
    (visited : Finset (ℕ × ℕ)) (x y : ℕ) :
    (floodRegion bm w h visited x y).1.length ≤ (fgFinset bm w h).card := by
  obtain ⟨-, h3, h4⟩ := floodRegion_spec bm w h visited x y
  have hsub : ((floodRegion bm w h visited x y).1.map cellOf).toFinset ⊆
      fgFinset bm w h := by
    intro c hc
    obtain ⟨p, hp, rfl⟩ := List.mem_map.mp (List.mem_toFinset.mp hc)
    exact cellOf_mem_fgFinset bm w h (h3 p hp).1 (h3 p hp).2.1
  calc (floodRegion bm w h visited x y).1.length
      = ((floodRegion bm w h visited x y).1.map cellOf).length :=
        (List.length_map _ _).symm
    _ = ((floodRegion bm w h visited x y).1.map cellOf).toFinset.card :=
        (List.toFinset_card_of_nodup h4).symm
    _ ≤ (fgFinset bm w h).card := Finset.card_le_card hsub

/-! ## Flood-fill completeness: when the loop drains its stack, the region
is closed under foreground adjacency -/

theorem mem_grid_iff (w h : ℕ) (c : ℕ × ℕ) :
    c ∈ grid w h ↔ c.1 < w ∧ c.2 < h := by
  unfold grid
  rw [Finset.mem_product, Finset.mem_range, Finset.mem_range]

theorem floodLoop_closed (bm : List (List Bool)) (w h : ℕ) :
    ∀ (fuel : ℕ) (visited : Finset (ℕ × ℕ)) (stack region : List (ℤ × ℤ)),
      floodFuel w h visited stack ≤ fuel →
      (∀ a ∈ region, ∀ b : ℕ × ℕ, adjN w h (cellOf a) b →
        getCell bm b.1 b.2 = true →
        b ∈ visited ∨ ∃ z ∈ stack, validP w h z ∧ cellOf z = b) →
      ∀ a ∈ (floodLoop bm w h fuel visited stack region).1, ∀ b : ℕ × ℕ,
        adjN w h (cellOf a) b → getCell bm b.1 b.2 = true →
        b ∈ (floodLoop bm w h fuel visited stack region).2 := by
  intro fuel
  induction fuel with
  | zero =>
    intro visited stack region hfuel hinv
    match stack with
    | [] =>
      intro a ha b hadj hfg
      simp only [floodLoop] at ha ⊢
      rcases hinv a ha b hadj hfg with hb | ⟨z, hz, -, -⟩
      · exact hb
      · exact absurd hz (List.not_mem_nil z)
    | p :: rest =>
      exfalso
      unfold floodFuel at hfuel
      simp only [List.length_cons] at hfuel
      omega
  | succ fuel ih =>
    intro visited stack region hfuel hinv
    match stack with
    | [] =>
      intro a ha b hadj hfg
      simp only [floodLoop] at ha ⊢
      rcases hinv a ha b hadj hfg with hb | ⟨z, hz, -, -⟩
      · exact hb
      · exact absurd hz (List.not_mem_nil z)
    | (cx, cy) :: rest =>
      rw [floodLoop_cons_unfold]
      split_ifs with h1 h2
      · refine ih visited rest region ?_ ?_
        · unfold floodFuel at hfuel ⊢
          simp only [List.length_cons] at hfuel
          omega
        · intro a ha b hadj hfg
          rcases hinv a ha b hadj hfg with hb | ⟨z, hz, hzval, hzc⟩
          · exact Or.inl hb
          · rcases List.mem_cons.mp hz with rfl | hz'
            · exfalso
              obtain ⟨z1, z2, z3, z4⟩ := hzval
              simp only at z1 z2 z3 z4
              rcases h1 with hc | hc | hc | hc <;> omega
            · exact Or.inr ⟨z, hz', hzval, hzc⟩
      · refine ih visited rest region ?_ ?_
        · unfold floodFuel at hfuel ⊢
          simp only [List.length_cons] at hfuel
          omega
        · intro a ha b hadj hfg
          rcases hinv a ha b hadj hfg with hb | ⟨z, hz, hzval, hzc⟩
          · exact Or.inl hb
          · rcases List.mem_cons.mp hz with rfl | hz'
            · rcases h2 with hmem | hbg
              · left
                rw [← hzc]
                exact hmem
              · exfalso
                subst hzc
                simp only [cellOf] at hfg
                rw [hbg] at hfg
                exact Bool.false_ne_true hfg
            · exact Or.inr ⟨z, hz', hzval, hzc⟩
      · push_neg at h1 h2
        obtain ⟨hv1, hv2, hv3, hv4⟩ := h1
        obtain ⟨hnv, hfgc⟩ := h2
        have hcgrid : (cx.toNat, cy.toNat) ∈ grid w h := by
          rw [mem_grid_iff]
          constructor <;> simp <;> omega
        have hmemdiff : (cx.toNat, cy.toNat) ∈ (grid w h) \ visited :=
          Finset.mem_sdiff.mpr ⟨hcgrid, hnv⟩
        have hcard : ((grid w h) \ insert (cx.toNat, cy.toNat) visited).card =
            ((grid w h) \ visited).card - 1 := by
          rw [Finset.sdiff_insert, Finset.card_erase_of_mem hmemdiff]
        have hcpos : 0 < ((grid w h) \ visited).card :=
          Finset.card_pos.mpr ⟨_, hmemdiff⟩
        refine ih (insert (cx.toNat, cy.toNat) visited) _ _ ?_ ?_
        · unfold floodFuel at hfuel ⊢
          simp only [List.length_cons] at hfuel ⊢
          omega
        · intro a ha b hadj hfg
          rcases List.mem_append.mp ha with ha' | ha'
          · rcases hinv a ha' b hadj hfg with hb | ⟨z, hz, hzval, hzc⟩
            · exact Or.inl (Finset.mem_insert_of_mem hb)
            · rcases List.mem_cons.mp hz with rfl | hz'
              · left
                rw [← hzc]
                exact Finset.mem_insert_self _ _
              · refine Or.inr ⟨z, ?_, hzval, hzc⟩
                simp only [List.mem_cons]
                tauto
          · have haeq : a = (cx, cy) := by simpa using ha'
            subst haeq
            obtain ⟨b1, b2⟩ := b
            rw [show cellOf (cx, cy) = (cx.toNat, cy.toNat) from rfl] at hadj
            simp only [adjN] at hadj
            obtain ⟨hb1, hb2, hcases⟩ := hadj
            right
            rcases hcases with ⟨hc1, hc2⟩ | ⟨hc1, hc2⟩ | ⟨hc1, hc2⟩ | ⟨hc1, hc2⟩
            · refine ⟨(cx + 1, cy), by simp, ?_, ?_⟩
              · exact ⟨show (0 : ℤ) ≤ cx + 1 by omega,
                  show cx + 1 < (w : ℤ) by omega,
                  show (0 : ℤ) ≤ cy by omega, show cy < (h : ℤ) by omega⟩
              · show ((cx + 1).toNat, cy.toNat) = (b1, b2)
                rw [Prod.mk.injEq]
                omega
            · refine ⟨(cx - 1, cy), by simp, ?_, ?_⟩
              · exact ⟨show (0 : ℤ) ≤ cx - 1 by omega,
                  show cx - 1 < (w : ℤ) by omega,
                  show (0 : ℤ) ≤ cy by omega, show cy < (h : ℤ) by omega⟩
              · show ((cx - 1).toNat, cy.toNat) = (b1, b2)
                rw [Prod.mk.injEq]
                omega
            · refine ⟨(cx, cy + 1), by simp, ?_, ?_⟩
              · exact ⟨show (0 : ℤ) ≤ cx by omega, show cx < (w : ℤ) by omega,
                  show (0 : ℤ) ≤ cy + 1 by omega,
                  show cy + 1 < (h : ℤ) by omega⟩
              · show (cx.toNat, (cy + 1).toNat) = (b1, b2)
                rw [Prod.mk.injEq]
                omega
            · refine ⟨(cx, cy - 1), by simp, ?_, ?_⟩
              · exact ⟨show (0 : ℤ) ≤ cx by omega, show cx < (w : ℤ) by omega,
                  show (0 : ℤ) ≤ cy - 1 by omega,
                  show cy - 1 < (h : ℤ) by omega⟩
              · show (cx.toNat, (cy - 1).toNat) = (b1, b2)
                rw [Prod.mk.injEq]
                omega

theorem floodRegion_closed (bm : List (List Bool)) (w h : ℕ)
    (visited : Finset (ℕ × ℕ)) (x y : ℕ) :
    ∀ a ∈ (floodRegion bm w h visited x y).1, ∀ b : ℕ × ℕ,
      adjN w h (cellOf a) b → getCell bm b.1 b.2 = true →
      b ∈ (floodRegion bm w h visited x y).2 := by
  unfold floodRegion
  refine floodLoop_closed bm w h _ visited _ [] (Nat.le_refl _) ?_
  intro a ha
  exact absurd ha (List.not_mem_nil a)

theorem floodRegion_start_mem (bm : List (List Bool)) (w h : ℕ)
    (visited : Finset (ℕ × ℕ)) (x y : ℕ) (hx : x < w) (hy : y < h)
    (hfg : getCell bm x y = true) (hnv : (x, y) ∉ visited) :
    ((x : ℤ), (y : ℤ)) ∈ (floodRegion bm w h visited x y).1 := by
  unfold floodRegion
  rw [show floodFuel w h visited [((x : ℤ), (y : ℤ))] =
    4 * ((grid w h) \ visited).card + 1 from rfl]
  rw [floodLoop_cons_unfold]
  rw [if_neg (by push_neg; refine ⟨by omega, by omega, by omega, by omega⟩)]
  rw [if_neg (by
    push_neg
    refine ⟨?_, ?_⟩
    · simpa using hnv
    · simpa using hfg)]
  obtain ⟨t, ht1, -, -, -⟩ := floodLoop_extension bm w h
    (4 * ((grid w h) \ visited).card)
    (insert (((x : ℤ)).toNat, ((y : ℤ)).toNat) visited)
    (((x : ℤ), (y : ℤ) - 1) :: ((x : ℤ), (y : ℤ) + 1) ::
      ((x : ℤ) - 1, (y : ℤ)) :: ((x : ℤ) + 1, (y : ℤ)) :: [])
    ([] ++ [((x : ℤ), (y : ℤ))])
  rw [ht1]
  simp

theorem floodRegion_reach_mem (bm : List (List Bool)) (w h : ℕ) (x y : ℕ)
    (hx : x < w) (hy : y < h) (hfg : getCell bm x y = true) :
    ∀ c : ℕ × ℕ, Reach bm w h (x, y) c →
      c ∈ (((floodRegion bm w h ∅ x y).1.map cellOf).toFinset) := by
  have hvis : (floodRegion bm w h ∅ x y).2 =
      (((floodRegion bm w h ∅ x y).1.map cellOf).toFinset) := by
    rw [(floodRegion_spec bm w h ∅ x y).1, Finset.empty_union]
  intro c hreach
  unfold Reach at hreach
  induction hreach with
  | refl =>
    have hmem := floodRegion_start_mem bm w h ∅ x y hx hy hfg
      (Finset.not_mem_empty _)
    rw [List.mem_toFinset]
    refine List.mem_map.mpr ⟨((x : ℤ), (y : ℤ)), hmem, ?_⟩
    show (((x : ℤ)).toNat, ((y : ℤ)).toNat) = (x, y)
    simp
  | tail hstep hadj ihmem =>
    rename_i u v
    obtain ⟨p, hp, hpc⟩ := List.mem_map.mp (List.mem_toFinset.mp ihmem)
    obtain ⟨-, -, -, hfgv, hadjv⟩ := hadj
    rw [← hvis]
    refine floodRegion_closed bm w h ∅ x y p hp v ?_ hfgv
    rw [hpc]
    exact hadjv

/-! ## Bounding-box and run-scan lemmas -/

theorem foldl_min_le_init : ∀ (xs : List ℤ) (x : ℤ), xs.foldl min x ≤ x := by
  intro xs
  induction xs with
  | nil => intro x; exact le_refl x
  | cons y ys ih =>
    intro x
    rw [List.foldl_cons]
    exact le_trans (ih (min x y)) (min_le_left x y)

theorem foldl_min_mem : ∀ (xs : List ℤ) (x : ℤ), xs.foldl min x ∈ x :: xs := by
  intro xs
  induction xs with
  | nil => intro x; simp
  | cons y ys ih =>
    intro x
    rw [List.foldl_cons]
    rcases List.mem_cons.mp (ih (min x y)) with hm | hm
    · rw [hm]
      rcases min_choice x y with hc | hc
      · rw [hc]
        simp
      · rw [hc]
        simp
    · simp [hm]

theorem foldl_min_le : ∀ (xs : List ℤ) (x a : ℤ), a ∈ x :: xs →
    xs.foldl min x ≤ a := by
  intro xs
  induction xs with
  | nil =>
    intro x a ha
    simp at ha
    simp [ha]
  | cons y ys ih =>
    intro x a ha
    rw [List.foldl_cons]
    rcases List.mem_cons.mp ha with rfl | ha'
    · exact le_trans (foldl_min_le_init ys (min a y)) (min_le_left a y)
    · rcases List.mem_cons.mp ha' with rfl | ha''
      · exact le_trans (foldl_min_le_init ys (min x a)) (min_le_right x a)
      · exact ih (min x y) a (List.mem_cons_of_mem _ ha'')

theorem le_foldl_max_init : ∀ (xs : List ℤ) (x : ℤ), x ≤ xs.foldl max x := by
  intro xs
  induction xs with
  | nil => intro x; exact le_refl x
  | cons y ys ih =>
    intro x
    rw [List.foldl_cons]
    exact le_trans (le_max_left x y) (ih (max x y))

theorem foldl_max_mem : ∀ (xs : List ℤ) (x : ℤ), xs.foldl max x ∈ x :: xs := by
  intro xs
  induction xs with
  | nil => intro x; simp
  | cons y ys ih =>
    intro x
    rw [List.foldl_cons]
    rcases List.mem_cons.mp (ih (max x y)) with hm | hm
    · rw [hm]
      rcases max_choice x y with hc | hc
      · rw [hc]
        simp
      · rw [hc]
        simp
    · simp [hm]

theorem le_foldl_max : ∀ (xs : List ℤ) (x a : ℤ), a ∈ x :: xs →
    a ≤ xs.foldl max x := by
  intro xs
  induction xs with
  | nil =>
    intro x a ha
    simp at ha
    simp [ha]
  | cons y ys ih =>
    intro x a ha
    rw [List.foldl_cons]
    rcases List.mem_cons.mp ha with rfl | ha'
    · exact le_trans (le_max_left a y) (le_foldl_max_init ys (max a y))
    · rcases List.mem_cons.mp ha' with rfl | ha''
      · exact le_trans (le_max_right x a) (le_foldl_max_init ys (max x a))
      · exact ih (max x y) a (List.mem_cons_of_mem _ ha'')

theorem listMinI_mem {l : List ℤ} (hl : l ≠ []) : listMinI l ∈ l := by
  match l with
  | x :: xs => exact foldl_min_mem xs x

theorem listMinI_le {l : List ℤ} {a : ℤ} (ha : a ∈ l) : listMinI l ≤ a := by
  match l with
  | x :: xs => exact foldl_min_le xs x a ha

theorem listMaxI_mem {l : List ℤ} (hl : l ≠ []) : listMaxI l ∈ l := by
  match l with
  | x :: xs => exact foldl_max_mem xs x

theorem le_listMaxI {l : List ℤ} {a : ℤ} (ha : a ∈ l) : a ≤ listMaxI l := by
  match l with
  | x :: xs => exact le_foldl_max xs x a ha

theorem mem_intRange {lo hi a : ℤ} :
    a ∈ intRange lo hi ↔ lo ≤ a ∧ a ≤ hi := by
  unfold intRange
  simp only [List.mem_map, List.mem_range]
  constructor
  · rintro ⟨i, hi', rfl⟩
    omega
  · rintro ⟨h1, h2⟩
    exact ⟨(a - lo).toNat, by omega, by omega⟩

theorem intRange_cons (lo hi : ℤ) (hle : lo ≤ hi) :
    intRange lo hi = lo :: intRange (lo + 1) hi := by
  unfold intRange
  rw [show (hi + 1 - lo).toNat = (hi + 1 - (lo + 1)).toNat + 1 by omega,
    List.range_succ_eq_map, List.map_cons, List.map_map]
  refine congrArg₂ _ (by simp) (List.map_congr_left ?_)
  intro i _
  simp only [Function.comp_apply]
  push_cast
  ring

theorem intRange_concat (lo hi : ℤ) (hle : lo ≤ hi) :
    intRange lo hi = intRange lo (hi - 1) ++ [hi] := by
  unfold intRange
  rw [show (hi + 1 - lo).toNat = (hi - 1 + 1 - lo).toNat + 1 by omega,
    List.range_succ, List.map_append]
  refine congrArg₂ _ rfl ?_
  simp only [List.map_cons, List.map_nil]
  refine congrArg₂ _ ?_ rfl
  omega

theorem runIsBlack_last (region : List (ℤ × ℤ)) (maxX ry : ℤ) :
    runIsBlack region maxX ry (maxX + 1) = false := by
  unfold runIsBlack
  rw [decide_eq_false (by omega)]
  rfl

theorem runStep_len (region : List (ℤ × ℤ)) (maxX ry : ℤ)
    (st : Bool × ℤ × String) (rx : ℤ) :
    st.2.2.length ≤ (runStep region maxX ry st rx).2.2.length := by
  unfold runStep
  split_ifs
  · exact Nat.le_refl _
  · simp only [String.length_append]
    omega
  · exact Nat.le_refl _

theorem foldl_runStep_len (region : List (ℤ × ℤ)) (maxX ry : ℤ) :
    ∀ (L : List ℤ) (st : Bool × ℤ × String),
      st.2.2.length ≤ (L.foldl (runStep region maxX ry) st).2.2.length := by
  intro L
  induction L with
  | nil => intro st; exact Nat.le_refl _
  | cons rx L' ih =>
    intro st
    rw [List.foldl_cons]
    exact le_trans (runStep_len region maxX ry st rx) (ih _)

theorem runStep_emit (region : List (ℤ × ℤ)) (maxX ry : ℤ)
    (st : Bool × ℤ × String) (rx : ℤ) (hir : st.1 = true)
    (hpb : runIsBlack region maxX ry rx = false) :
    st.2.2.length < (runStep region maxX ry st rx).2.2.length := by
  unfold runStep
  rw [hpb, hir]
  simp only [Bool.false_and, Bool.not_false, Bool.true_and, if_false, if_true]
  show st.2.2.length < (st.2.2 ++ "M" ++ toString st.2.1 ++ "," ++ toString ry
    ++ "h" ++ toString (rx - st.2.1) ++ "v1h" ++ toString (st.2.1 - rx)
    ++ "z").length
  simp only [String.length_append]
  rw [show ("M").length = 1 from rfl]
  omega

theorem runStep_steady_true (region : List (ℤ × ℤ)) (maxX ry : ℤ)
    (s : ℤ) (acc : String) (rx : ℤ)
    (hpb : runIsBlack region maxX ry rx = true) :
    runStep region maxX ry (true, s, acc) rx = (true, s, acc) := by
  unfold runStep
  rw [hpb]
  simp

theorem runStep_steady_false (region : List (ℤ × ℤ)) (maxX ry : ℤ)
    (s : ℤ) (acc : String) (rx : ℤ)
    (hpb : runIsBlack region maxX ry rx = false) :
    runStep region maxX ry (false, s, acc) rx = (false, s, acc) := by
  unfold runStep
  rw [hpb]
  simp

theorem runStep_enter (region : List (ℤ × ℤ)) (maxX ry : ℤ)
    (s : ℤ) (acc : String) (rx : ℤ)
    (hpb : runIsBlack region maxX ry rx = true) :
    runStep region maxX ry (false, s, acc) rx = (true, rx, acc) := by
  unfold runStep
  rw [hpb]
  simp

theorem foldl_runStep_inRun (region : List (ℤ × ℤ)) (maxX ry : ℤ) :
    ∀ (L : List ℤ) (s : ℤ) (acc : String),
      acc.length ≤
        (L.foldl (runStep region maxX ry) (true, s, acc)).2.2.length ∧
      ((L.foldl (runStep region maxX ry) (true, s, acc)).1 = false →
        acc.length <
          (L.foldl (runStep region maxX ry) (true, s, acc)).2.2.length) := by
  intro L
  induction L with
  | nil =>
    intro s acc
    refine ⟨Nat.le_refl _, ?_⟩
    intro hfalse
    exact absurd hfalse (by simp)
  | cons rx L' ih =>
    intro s acc
    rw [List.foldl_cons]
    cases hpb : runIsBlack region maxX ry rx with
    | true =>
      rw [runStep_steady_true region maxX ry s acc rx hpb]
      exact ih s acc
    | false =>
      have hlt : acc.length <
          (runStep region maxX ry (true, s, acc) rx).2.2.length :=
        runStep_emit region maxX ry (true, s, acc) rx rfl hpb
      have hle := foldl_runStep_len region maxX ry L'
        (runStep region maxX ry (true, s, acc) rx)
      refine ⟨Nat.le_of_lt (lt_of_lt_of_le hlt hle), ?_⟩
      intro _
      exact lt_of_lt_of_le hlt hle

theorem foldl_runStep_growth (region : List (ℤ × ℤ)) (maxX ry : ℤ) :
    ∀ (L : List ℤ) (ir : Bool) (s : ℤ) (acc : String),
      (∃ rx ∈ L, runIsBlack region maxX ry rx = true) →
      acc.length <
          (L.foldl (runStep region maxX ry) (ir, s, acc)).2.2.length ∨
        (L.foldl (runStep region maxX ry) (ir, s, acc)).1 = true := by
  intro L
  induction L with
  | nil =>
    intro ir s acc hex
    obtain ⟨rx, hrx, -⟩ := hex
    exact absurd hrx (List.not_mem_nil rx)
  | cons rx₀ L' ih =>
    intro ir s acc hex
    rw [List.foldl_cons]
    cases hpb₀ : runIsBlack region maxX ry rx₀ with
    | true =>
      have hstep : ∃ s₂, runStep region maxX ry (ir, s, acc) rx₀ =
          (true, s₂, acc) := by
        cases ir with
        | true => exact ⟨s, runStep_steady_true region maxX ry s acc rx₀ hpb₀⟩
        | false => exact ⟨rx₀, runStep_enter region maxX ry s acc rx₀ hpb₀⟩
      obtain ⟨s₂, hstep⟩ := hstep
      rw [hstep]
      obtain ⟨g1, g2⟩ := foldl_runStep_inRun region maxX ry L' s₂ acc
      cases hf : (L'.foldl (runStep region maxX ry) (true, s₂, acc)).1 with
      | false => exact Or.inl (g2 hf)
      | true => exact Or.inr rfl
    | false =>
      cases ir with
      | true =>
        have hlt : acc.length <
            (runStep region maxX ry (true, s, acc) rx₀).2.2.length :=
          runStep_emit region maxX ry (true, s, acc) rx₀ rfl hpb₀
        have hle := foldl_runStep_len region maxX ry L'
          (runStep region maxX ry (true, s, acc) rx₀)
        exact Or.inl (lt_of_lt_of_le hlt hle)
      | false =>
        rw [runStep_steady_false region maxX ry s acc rx₀ hpb₀]
        refine ih false s acc ?_
        obtain ⟨rx, hrx, hpbx⟩ := hex
        rcases List.mem_cons.mp hrx with rfl | hrx'
        · rw [hpb₀] at hpbx
          exact absurd hpbx (by simp)
        · exact ⟨rx, hrx', hpbx⟩

theorem rowRuns_growth (region : List (ℤ × ℤ)) (minX maxX ry : ℤ)
    (acc : String) (hminmax : minX ≤ maxX)
    (hex : ∃ rx ∈ intRange minX maxX,
      runIsBlack region maxX ry rx = true) :
    acc.length < (rowRuns region minX maxX ry acc).length := by
  unfold rowRuns
  rw [intRange_concat minX (maxX + 1) (by omega)]
  simp only [add_sub_cancel_right]
  rw [List.foldl_append]
  rw [show ∀ st, List.foldl (runStep region maxX ry) st [maxX + 1] =
    runStep region maxX ry st (maxX + 1) from fun st => rfl]
  rcases foldl_runStep_growth region maxX ry (intRange minX maxX) false 0 acc
      hex with hlt | hir
  · exact lt_of_lt_of_le hlt (runStep_len region maxX ry _ _)
  · have hle := foldl_runStep_len region maxX ry (intRange minX maxX)
      (false, 0, acc)
    have hlt2 := runStep_emit region maxX ry
      ((intRange minX maxX).foldl (runStep region maxX ry) (false, 0, acc))
      (maxX + 1) hir (runIsBlack_last region maxX ry)
    exact lt_of_le_of_lt hle hlt2

theorem rowRuns_len_le (region : List (ℤ × ℤ)) (minX maxX ry : ℤ)
    (acc : String) : acc.length ≤ (rowRuns region minX maxX ry acc).length :=
  foldl_runStep_len region maxX ry (intRange minX (maxX + 1)) (false, 0, acc)

theorem foldl_rowRuns_len (region : List (ℤ × ℤ)) (minX maxX : ℤ) :
    ∀ (L : List ℤ) (acc : String),
      acc.length ≤
        (L.foldl (fun acc ry => rowRuns region minX maxX ry acc) acc).length := by
  intro L
  induction L with
  | nil => intro acc; exact Nat.le_refl _
  | cons ry L' ih =>
    intro acc
    rw [List.foldl_cons]
    exact le_trans (rowRuns_len_le region minX maxX ry acc) (ih _)

theorem regionPathData_ne_empty (region : List (ℤ × ℤ))
    (hne : region ≠ []) : regionPathData region ≠ "" := by
  have hxs : region.map Prod.fst ≠ [] := by
    intro hcon
    exact hne (List.map_eq_nil_iff.mp hcon)
  have hys : region.map Prod.snd ≠ [] := by
    intro hcon
    exact hne (List.map_eq_nil_iff.mp hcon)
  obtain ⟨p, hp, hpy⟩ := List.mem_map.mp (listMinI_mem hys)
  have hp1 : p.1 ∈ region.map Prod.fst := List.mem_map.mpr ⟨p, hp, rfl⟩
  have hminx : listMinI (region.map Prod.fst) ≤ p.1 := listMinI_le hp1
  have hmaxx : p.1 ≤ listMaxI (region.map Prod.fst) := le_listMaxI hp1
  have hminmaxy : listMinI (region.map Prod.snd) ≤
      listMaxI (region.map Prod.snd) := le_listMaxI (listMinI_mem hys)
  show ((intRange (listMinI (region.map Prod.snd))
      (listMaxI (region.map Prod.snd))).foldl
    (fun acc ry => rowRuns region (listMinI (region.map Prod.fst))
      (listMaxI (region.map Prod.fst)) ry acc) "") ≠ ""
  rw [intRange_cons _ _ hminmaxy, List.foldl_cons]
  have hpb : runIsBlack region (listMaxI (region.map Prod.fst))
      (listMinI (region.map Prod.snd)) p.1 = true := by
    unfold runIsBlack
    rw [Bool.and_eq_true, decide_eq_true_eq]
    refine ⟨hmaxx, ?_⟩
    rw [List.any_eq_true]
    refine ⟨p, hp, ?_⟩
    rw [Bool.and_eq_true, beq_iff_eq, beq_iff_eq]
    exact ⟨rfl, hpy⟩
  have h1 : 0 < (rowRuns region (listMinI (region.map Prod.fst))
      (listMaxI (region.map Prod.fst)) (listMinI (region.map Prod.snd))
      "").length := by
    refine rowRuns_growth region _ _ _ "" (le_trans hminx hmaxx) ?_
    exact ⟨p.1, mem_intRange.mpr ⟨hminx, hmaxx⟩, hpb⟩
  have h2 := foldl_rowRuns_len region (listMinI (region.map Prod.fst))
    (listMaxI (region.map Prod.fst))
    (intRange (listMinI (region.map Prod.snd) + 1)
      (listMaxI (region.map Prod.snd)))
    (rowRuns region (listMinI (region.map Prod.fst))
      (listMaxI (region.map Prod.fst)) (listMinI (region.map Prod.snd)) "")
  intro hcon
  rw [hcon] at h2
  simp only [String.length_empty] at h2
  omega

/-! ## Scan-order decomposition of the outer loop -/

theorem mem_scanCells {w h : ℕ} {c : ℕ × ℕ} :
    c ∈ scanCells w h ↔ c.1 < w ∧ c.2 < h := by
  unfold scanCells
  rw [List.mem_flatten]
  constructor
  · rintro ⟨l, hl, hc⟩
    obtain ⟨y, hy, rfl⟩ := List.mem_map.mp hl
    obtain ⟨x, hx, rfl⟩ := List.mem_map.mp hc
    exact ⟨by simpa using List.mem_range.mp hx,
      by simpa using List.mem_range.mp hy⟩
  · rintro ⟨h1, h2⟩
    refine ⟨(List.range w).map (fun x => (x, c.2)),
      List.mem_map.mpr ⟨c.2, List.mem_range.mpr h2, rfl⟩, ?_⟩
    refine List.mem_map.mpr ⟨c.1, List.mem_range.mpr h1, rfl⟩

theorem exists_first_true {α : Type} (p : α → Bool) :
    ∀ (L : List α), (∃ c ∈ L, p c = true) →
      ∃ (pre : List α) (s : α) (post : List α),
        L = pre ++ s :: post ∧ p s = true ∧ ∀ c ∈ pre, p c = false := by
  intro L
  induction L with
  | nil =>
    rintro ⟨c, hc, -⟩
    exact absurd hc (List.not_mem_nil c)
  | cons a L' ih =>
    rintro ⟨c, hc, hpc⟩
    cases hpa : p a with
    | true =>
      refine ⟨[], a, L', rfl, hpa, ?_⟩
      intro c hc
      exact absurd hc (List.not_mem_nil c)
    | false =>
      have hex' : ∃ c ∈ L', p c = true := by
        rcases List.mem_cons.mp hc with rfl | hc'
        · rw [hpa] at hpc
          exact absurd hpc (by simp)
        · exact ⟨c, hc', hpc⟩
      obtain ⟨pre, s, post, hsplit, hps, hpre⟩ := ih hex'
      refine ⟨a :: pre, s, post, by rw [hsplit]; rfl, hps, ?_⟩
      intro c hc
      rcases List.mem_cons.mp hc with rfl | hc'
      · exact hpa
      · exact hpre c hc'

theorem foldl_traceCell_skip (bm : List (List Bool)) (w h : ℕ)
    (color : String) :
    ∀ (cells : List (ℕ × ℕ)) (st : Finset (ℕ × ℕ) × List String),
      (∀ c ∈ cells, getCell bm c.1 c.2 = false) →
      cells.foldl (traceCell bm w h color) st = st := by
  intro cells
  induction cells with
  | nil => intro st _; rfl
  | cons c cs ih =>
    intro st hbg
    rw [List.foldl_cons]
    have hc : traceCell bm w h color st c = st := by
      unfold traceCell
      simp [hbg c (by simp)]
    rw [hc]
    exact ih st fun d hd => hbg d (List.mem_cons_of_mem _ hd)

theorem foldl_traceCell_extend (bm : List (List Bool)) (w h : ℕ)
    (color : String) :
    ∀ (cells : List (ℕ × ℕ)) (st : Finset (ℕ × ℕ) × List String),
      ∃ t, (cells.foldl (traceCell bm w h color) st).2 = st.2 ++ t := by
  intro cells
  induction cells with
  | nil => intro st; exact ⟨[], by simp⟩
  | cons c cs ih =>
    intro st
    rw [List.foldl_cons]
    have hstep : ∃ t₀, (traceCell bm w h color st c).2 = st.2 ++ t₀ := by
      unfold traceCell
      split_ifs
      · exact ⟨[pathElem (regionPathData
          (floodRegion bm w h st.1 c.1 c.2).1) color], rfl⟩
      · exact ⟨[], by simp⟩
      · exact ⟨[], by simp⟩
      · exact ⟨[], by simp⟩
    obtain ⟨t₀, ht₀⟩ := hstep
    obtain ⟨t₁, ht₁⟩ := ih (traceCell bm w h color st c)
    exact ⟨t₀ ++ t₁, by rw [ht₁, ht₀, List.append_assoc]⟩

/-! ## Claim C2 — the noise filter -/

theorem floodRegion_toFinset_subset (bm : List (List Bool)) (w h : ℕ)
    (visited : Finset (ℕ × ℕ)) (x y : ℕ) :
    ((floodRegion bm w h visited x y).1.map cellOf).toFinset ⊆
      fgFinset bm w h := by
  intro c hc
  obtain ⟨p, hp, rfl⟩ := List.mem_map.mp (List.mem_toFinset.mp hc)
  obtain ⟨-, h3, -⟩ := floodRegion_spec bm w h visited x y
  exact cellOf_mem_fgFinset bm w h (h3 p hp).1 (h3 p hp).2.1

theorem trace_empty_of_few_cells (bm : List (List Bool)) (color : String)
    (hcard : (fgFinset bm (bmWidth bm) (bmHeight bm)).card ≤ 10) :
    bitmapToSvgPaths bm color = [] := by
  suffices hfold : ∀ (cells : List (ℕ × ℕ))
      (st : Finset (ℕ × ℕ) × List String),
      (cells.foldl (traceCell bm (bmWidth bm) (bmHeight bm) color) st).2 =
        st.2 by
    unfold bitmapToSvgPaths
    rw [hfold]
  intro cells
  induction cells with
  | nil => intro st; rfl
  | cons c cs ih =>
    intro st
    rw [List.foldl_cons, ih]
    unfold traceCell
    split_ifs with h1 h2 h3
    · exfalso
      have := floodRegion_length_le bm (bmWidth bm) (bmHeight bm) st.1 c.1 c.2
      omega
    · exfalso
      have := floodRegion_length_le bm (bmWidth bm) (bmHeight bm) st.1 c.1 c.2
      omega
    · rfl
    · rfl

theorem fgAdj_symm {bm : List (List Bool)} {w h : ℕ} {u v : ℕ × ℕ}
    (huv : fgAdj bm w h u v) : fgAdj bm w h v u := by
  obtain ⟨hu1, hu2, hfgu, hfgv, hv1, hv2, hcases⟩ := huv
  refine ⟨hv1, hv2, hfgv, hfgu, hu1, hu2, ?_⟩
  rcases hcases with ⟨h1, h2⟩ | ⟨h1, h2⟩ | ⟨h1, h2⟩ | ⟨h1, h2⟩
  · exact Or.inr (Or.inl ⟨h1, h2.symm⟩)
  · exact Or.inl ⟨h1, h2.symm⟩
  · exact Or.inr (Or.inr (Or.inr ⟨h1, h2.symm⟩))
  · exact Or.inr (Or.inr (Or.inl ⟨h1, h2.symm⟩))

theorem Reach_symm {bm : List (List Bool)} {w h : ℕ} {a b : ℕ × ℕ}
    (hab : Reach bm w h a b) : Reach bm w h b a :=
  Relation.ReflTransGen.symmetric (fun _ _ huv => fgAdj_symm huv) hab

theorem trace_nonempty_of_connected_eleven (bm : List (List Bool))
    (color : String) (s : ℕ × ℕ)
    (hs : s ∈ fgFinset bm (bmWidth bm) (bmHeight bm))
    (hconn : ∀ c ∈ fgFinset bm (bmWidth bm) (bmHeight bm),
      Reach bm (bmWidth bm) (bmHeight bm) s c)
    (hcard : (fgFinset bm (bmWidth bm) (bmHeight bm)).card = 11) :
    bitmapToSvgPaths bm color ≠ [] := by
  have hc₀g : s.1 < bmWidth bm ∧ s.2 < bmHeight bm :=
    (mem_grid_iff _ _ s).mp (Finset.mem_filter.mp hs).1
  have hex : ∃ c ∈ scanCells (bmWidth bm) (bmHeight bm),
      getCell bm c.1 c.2 = true :=
    ⟨s, mem_scanCells.mpr hc₀g, (Finset.mem_filter.mp hs).2⟩
  obtain ⟨pre, s₀, post, hsplit, hps₀, hpre⟩ :=
    exists_first_true (fun c => getCell bm c.1 c.2) _ hex
  have hs₀mem : s₀ ∈ scanCells (bmWidth bm) (bmHeight bm) := by
    rw [hsplit]
    simp
  have hs₀g := mem_scanCells.mp hs₀mem
  have hs₀fg : s₀ ∈ fgFinset bm (bmWidth bm) (bmHeight bm) :=
    Finset.mem_filter.mpr ⟨(mem_grid_iff _ _ _).mpr hs₀g, hps₀⟩
  have hreach : ∀ c ∈ fgFinset bm (bmWidth bm) (bmHeight bm),
      Reach bm (bmWidth bm) (bmHeight bm) (s₀.1, s₀.2) c := by
    intro c hc
    exact Relation.ReflTransGen.trans (Reach_symm (hconn s₀ hs₀fg)) (hconn c hc)
  have heq : (((floodRegion bm (bmWidth bm) (bmHeight bm) ∅ s₀.1
      s₀.2).1.map cellOf).toFinset) =
      fgFinset bm (bmWidth bm) (bmHeight bm) := by
    refine Finset.Subset.antisymm
      (floodRegion_toFinset_subset bm _ _ ∅ s₀.1 s₀.2) ?_
    intro c hc
    exact floodRegion_reach_mem bm (bmWidth bm) (bmHeight bm) s₀.1 s₀.2
      hs₀g.1 hs₀g.2 hps₀ c (hreach c hc)
  have hlen : (floodRegion bm (bmWidth bm) (bmHeight bm) ∅ s₀.1 s₀.2).1.length
      = 11 := by
    have hnodup := (floodRegion_spec bm (bmWidth bm) (bmHeight bm) ∅ s₀.1
      s₀.2).2.2
    have h1 := List.toFinset_card_of_nodup hnodup
    rw [heq, hcard, List.length_map] at h1
    exact h1.symm
  unfold bitmapToSvgPaths
  rw [hsplit, List.foldl_append, List.foldl_cons]
  rw [foldl_traceCell_skip bm (bmWidth bm) (bmHeight bm) color pre _ hpre]
  have hstep : traceCell bm (bmWidth bm) (bmHeight bm) color (∅, []) s₀ =
      ((floodRegion bm (bmWidth bm) (bmHeight bm) ∅ s₀.1 s₀.2).2,
        [pathElem (regionPathData
          (floodRegion bm (bmWidth bm) (bmHeight bm) ∅ s₀.1 s₀.2).1)
          color]) := by
    unfold traceCell
    rw [if_pos ⟨hps₀, Finset.not_mem_empty _⟩,
      if_pos (show (10 : ℕ) < _ by rw [hlen]; omega),
      if_pos (regionPathData_ne_empty _ (by
        intro hnil
        rw [hnil] at hlen
        simp at hlen))]
    rfl
  rw [hstep]
  obtain ⟨t, ht⟩ := foldl_traceCell_extend bm (bmWidth bm) (bmHeight bm)
    color post _
  rw [ht]
  simp

/-- Counterexample to claim C2 — the single-row mask with exactly 10
foreground cells: its one connected region has exactly 10 cells, yet the
trace emits NO path (the code keeps a region only when
`region.length > 10`), so a region of exactly 10 cells is discarded, not
kept. -/
theorem ten_cell_region_discarded :
    (floodRegion (rowMask 10) (bmWidth (rowMask 10)) (bmHeight (rowMask 10))
      ∅ 0 0).1.length = 10 ∧
    bitmapToSvgPaths (rowMask 10) "#000000" = [] := by decide

/-- Claim C2 as amended — the tracer discards exactly the regions with AT
MOST 10 member cells (cutoff `length > 10`): any mask whose scanned grid
holds at most 10 foreground cells (in particular a single connected region
of 9 or of exactly 10 cells) traces to zero paths, while a mask whose
foreground is one connected region of exactly 11 cells traces to at least
one path. -/
theorem noise_filter_amended :
    (∀ (bm : List (List Bool)) (color : String),
      (fgFinset bm (bmWidth bm) (bmHeight bm)).card ≤ 10 →
      bitmapToSvgPaths bm color = []) ∧
    (∀ (bm : List (List Bool)) (color : String) (s : ℕ × ℕ),
      s ∈ fgFinset bm (bmWidth bm) (bmHeight bm) →
      (∀ c ∈ fgFinset bm (bmWidth bm) (bmHeight bm),
        Reach bm (bmWidth bm) (bmHeight bm) s c) →
      (fgFinset bm (bmWidth bm) (bmHeight bm)).card = 11 →
      bitmapToSvgPaths bm color ≠ []) :=
  ⟨fun bm color hcard => trace_empty_of_few_cells bm color hcard,
   fun bm color s hs hconn hcard =>
    trace_nonempty_of_connected_eleven bm color s hs hconn hcard⟩

theorem getCell_rowMask {n x : ℕ} (hx : x < n) :
    getCell (rowMask n) x 0 = true := by
  unfold rowMask getCell
  rw [show ([List.replicate n true] : List (List Bool)).getD 0 [] =
    List.replicate n true from rfl]
  rw [List.getD_eq_getElem?_getD, List.getElem?_replicate]
  simp [hx]

theorem fgAdj_rowMask_fwd {n i : ℕ} (hi : i + 1 < n) :
    fgAdj (rowMask n) n 1 (i, 0) (i + 1, 0) :=
  ⟨by omega, by omega, getCell_rowMask (by omega), getCell_rowMask hi,
    hi, by omega, Or.inl ⟨rfl, rfl⟩⟩

theorem fgAdj_rowMask_bwd {n i : ℕ} (hi : i + 1 < n) :
    fgAdj (rowMask n) n 1 (i + 1, 0) (i, 0) :=
  ⟨hi, by omega, getCell_rowMask hi, getCell_rowMask (by omega),
    by omega, by omega, Or.inr (Or.inl ⟨rfl, rfl⟩)⟩

theorem reach_rowMask_fwd (n : ℕ) : ∀ j k : ℕ, j ≤ k → k < n →
    Reach (rowMask n) n 1 (j, 0) (k, 0) := by
  intro j k hjk
  induction k, hjk using Nat.le_induction with
  | base => intro _; exact Relation.ReflTransGen.refl
  | succ k hjk ih =>
    intro hk
    exact Relation.ReflTransGen.tail (ih (by omega)) (fgAdj_rowMask_fwd hk)

theorem reach_rowMask_bwd (n : ℕ) : ∀ j k : ℕ, k ≤ j → j < n →
    Reach (rowMask n) n 1 (j, 0) (k, 0) := by
  intro j k hkj
  induction j, hkj using Nat.le_induction with
  | base => intro _; exact Relation.ReflTransGen.refl
  | succ j hkj ih =>
    intro hj
    exact Relation.ReflTransGen.head (fgAdj_rowMask_bwd hj) (ih (by omega))

theorem reach_rowMask (n : ℕ) (j k : ℕ) (hj : j < n) (hk : k < n) :
    Reach (rowMask n) n 1 (j, 0) (k, 0) := by
  rcases Nat.le_total j k with hle | hle
  · exact reach_rowMask_fwd n j k hle hk
  · exact reach_rowMask_bwd n j k hle hj

/-- Witness for the amended C2: the 1×9 all-foreground row traces to zero
paths, and the 1×11 all-foreground row (a single connected region of 11
cells) traces to at least one path. -/
theorem noise_filter_amended_witness :
    bitmapToSvgPaths (rowMask 9) "#000000" = [] ∧
    bitmapToSvgPaths (rowMask 11) "#000000" ≠ [] := by
  constructor
  · exact noise_filter_amended.1 (rowMask 9) "#000000" (by decide)
  · refine noise_filter_amended.2 (rowMask 11) "#000000" (0, 0)
      (by decide) ?_ (by decide)
    intro c hc
    have hcg : c.1 < 11 ∧ c.2 < 1 := by
      have h1 := (Finset.mem_filter.mp hc).1
      exact (mem_grid_iff _ _ c).mp h1
    obtain ⟨c1, c2⟩ := c
    have hc2 : c2 = 0 := by omega
    subst hc2
    exact reach_rowMask 11 0 c1 (by omega) (by
      simpa using hcg.1)

/-! ## Claim C8 — determinism and emission order -/

theorem traceCellRec_fst (bm : List (List Bool)) (w h : ℕ) (color : String)
    (st : (Finset (ℕ × ℕ) × List String) × List ((ℕ × ℕ) × String))
    (c : ℕ × ℕ) :
    (traceCellRec bm w h color st c).1 = traceCell bm w h color st.1 c := by
  unfold traceCellRec traceCell
  split_ifs <;> rfl

theorem foldl_traceCellRec_fst (bm : List (List Bool)) (w h : ℕ)
    (color : String) :
    ∀ (cells : List (ℕ × ℕ))
      (st : (Finset (ℕ × ℕ) × List String) × List ((ℕ × ℕ) × String)),
      (cells.foldl (traceCellRec bm w h color) st).1 =
        cells.foldl (traceCell bm w h color) st.1 := by
  intro cells
  induction cells with
  | nil => intro st; rfl
  | cons c cs ih =>
    intro st
    rw [List.foldl_cons, List.foldl_cons, ih, traceCellRec_fst]

theorem foldl_traceCellRec_snd_map (bm : List (List Bool)) (w h : ℕ)
    (color : String) :
    ∀ (cells : List (ℕ × ℕ))
      (st : (Finset (ℕ × ℕ) × List String) × List ((ℕ × ℕ) × String)),
      st.1.2 = st.2.map Prod.snd →
      (cells.foldl (traceCellRec bm w h color) st).1.2 =
        (cells.foldl (traceCellRec bm w h color) st).2.map Prod.snd := by
  intro cells
  induction cells with
  | nil => intro st hst; exact hst
  | cons c cs ih =>
    intro st hst
    rw [List.foldl_cons]
    refine ih _ ?_
    unfold traceCellRec
    split_ifs
    · show st.1.2 ++ _ = (st.2 ++ _).map Prod.snd
      rw [List.map_append, hst]
      rfl
    · exact hst
    · exact hst
    · exact hst

theorem foldl_traceCellRec_starts_sublist (bm : List (List Bool)) (w h : ℕ)
    (color : String) :
    ∀ (cells : List (ℕ × ℕ))
      (st : (Finset (ℕ × ℕ) × List String) × List ((ℕ × ℕ) × String)),
      ∃ r, (cells.foldl (traceCellRec bm w h color) st).2 = st.2 ++ r ∧
        (r.map Prod.fst).Sublist cells := by
  intro cells
  induction cells with
  | nil => intro st; exact ⟨[], by simp, List.nil_sublist _⟩
  | cons c cs ih =>
    intro st
    rw [List.foldl_cons]
    obtain ⟨r', hr1, hr2⟩ := ih (traceCellRec bm w h color st c)
    have hstep : (traceCellRec bm w h color st c).2 = st.2 ∨
        (traceCellRec bm w h color st c).2 =
          st.2 ++ [(c, pathElem (regionPathData
            (floodRegion bm w h st.1.1 c.1 c.2).1) color)] := by
      unfold traceCellRec
      split_ifs
      · exact Or.inr rfl
      · exact Or.inl rfl
      · exact Or.inl rfl
      · exact Or.inl rfl
    rcases hstep with hstep | hstep
    · rw [hstep] at hr1
      exact ⟨r', hr1, hr2.trans (List.sublist_cons_self c cs)⟩
    · rw [hstep] at hr1
      refine ⟨(c, pathElem (regionPathData
          (floodRegion bm w h st.1.1 c.1 c.2).1) color) :: r', ?_, ?_⟩
      · rw [hr1, List.append_assoc]
        rfl
      · rw [List.map_cons]
        exact List.Sublist.cons₂ c hr2

theorem scanCells_succ (w h : ℕ) :
    scanCells w (h + 1) =
      scanCells w h ++ (List.range w).map (fun x => (x, h)) := by
  unfold scanCells
  rw [List.range_succ, List.map_append, List.flatten_append]
  simp

theorem scanCells_pairwise (w : ℕ) :
    ∀ h : ℕ, (scanCells w h).Pairwise scanLt := by
  intro h
  induction h with
  | zero => simp [scanCells]
  | succ h ih =>
    rw [scanCells_succ]
    rw [List.pairwise_append]
    refine ⟨ih, ?_, ?_⟩
    · rw [List.pairwise_map]
      refine List.Pairwise.imp ?_ (List.pairwise_lt_range w)
      intro a b hab
      exact Or.inr ⟨rfl, hab⟩
    · intro a ha b hb
      obtain ⟨x, -, rfl⟩ := List.mem_map.mp hb
      exact Or.inl (by simpa using (mem_scanCells.mp ha).2)

/-- Claim C8 — the trace is deterministic (two runs on the same mask are
byte-identical), and the paths are emitted in row-major scan order: the
instrumented tracer, whose core run erases to `bitmapToSvgPaths`, records
one discovery cell per emitted path, and those cells are strictly
increasing in scan order (a sublist of the row-major scan sequence, so
top-to-bottom, left-to-right). -/
theorem trace_deterministic_scan_order (bm : List (List Bool))
    (color : String) :
    bitmapToSvgPaths bm color = bitmapToSvgPaths bm color ∧
    (bitmapToSvgPathsRec bm color).1.2 = bitmapToSvgPaths bm color ∧
    ((bitmapToSvgPathsRec bm color).2.map Prod.snd =
      bitmapToSvgPaths bm color) ∧
    ((bitmapToSvgPathsRec bm color).2.map Prod.fst).Sublist
      (scanCells (bmWidth bm) (bmHeight bm)) ∧
    ((bitmapToSvgPathsRec bm color).2.map Prod.fst).Pairwise scanLt := by
  have h1 : (bitmapToSvgPathsRec bm color).1.2 = bitmapToSvgPaths bm color := by
    unfold bitmapToSvgPathsRec bitmapToSvgPaths
    rw [foldl_traceCellRec_fst]
  have h2 : (bitmapToSvgPathsRec bm color).1.2 =
      (bitmapToSvgPathsRec bm color).2.map Prod.snd := by
    unfold bitmapToSvgPathsRec
    exact foldl_traceCellRec_snd_map bm _ _ color _ _ rfl
  have h3 : ((bitmapToSvgPathsRec bm color).2.map Prod.fst).Sublist
      (scanCells (bmWidth bm) (bmHeight bm)) := by
    obtain ⟨r, hr1, hr2⟩ := foldl_traceCellRec_starts_sublist bm
      (bmWidth bm) (bmHeight bm) color
      (scanCells (bmWidth bm) (bmHeight bm)) ((∅, []), [])
    unfold bitmapToSvgPathsRec
    rw [hr1]
    simpa using hr2
  exact ⟨rfl, h1, h2.symm.trans h1, h3,
    List.Pairwise.sublist h3 (scanCells_pairwise (bmWidth bm) (bmHeight bm))⟩

/-! ## Claim C3 — tracing the full 100×100 black square -/

theorem foldl_runStep_steady (region : List (ℤ × ℤ)) (maxX ry : ℤ) :
    ∀ (L : List ℤ) (s : ℤ) (acc : String),
      (∀ rx ∈ L, runIsBlack region maxX ry rx = true) →
      L.foldl (runStep region maxX ry) (true, s, acc) = (true, s, acc) := by
  intro L
  induction L with
  | nil => intro s acc _; rfl
  | cons rx L' ih =>
    intro s acc hall
    rw [List.foldl_cons,
      runStep_steady_true region maxX ry s acc rx (hall rx (by simp))]
    exact ih s acc fun rx' hrx' => hall rx' (List.mem_cons_of_mem _ hrx')

theorem string_foldl_append :
    ∀ (l : List String) (a : String),
      l.foldl (· ++ ·) a = a ++ String.join l := by
  intro l
  induction l with
  | nil => intro a; exact (String.append_empty a).symm
  | cons s l' ih =>
    intro a
    rw [List.foldl_cons, ih]
    have hjoin : String.join (s :: l') = s ++ String.join l' := by
      show (s :: l').foldl (· ++ ·) "" = s ++ String.join l'
      rw [List.foldl_cons]
      exact ih ("" ++ s)
    rw [hjoin, String.append_assoc]

theorem foldl_rows_join (f : String → ℤ → String) (g : ℤ → String)
    (L : List ℤ) (hf : ∀ ry ∈ L, ∀ acc, f acc ry = acc ++ g ry) :
    ∀ acc, L.foldl f acc = acc ++ String.join (L.map g) := by
  induction L with
  | nil => intro acc; exact (String.append_empty acc).symm
  | cons ry L' ih =>
    intro acc
    rw [List.foldl_cons, hf ry (by simp) acc]
    rw [ih (fun ry' hry' => hf ry' (List.mem_cons_of_mem _ hry')) _]
    have hjoin : String.join (g ry :: L'.map g) =
        g ry ++ String.join (L'.map g) := by
      show (g ry :: L'.map g).foldl (· ++ ·) "" =
        g ry ++ String.join (L'.map g)
      rw [List.foldl_cons]
      exact string_foldl_append (L'.map g) ("" ++ g ry)
    rw [List.map_cons, hjoin, String.append_assoc]

theorem strip_assemble (acc t : String) :
    acc ++ "M" ++ "0" ++ "," ++ t ++ "h" ++ "100" ++ "v1h" ++ "-100" ++ "z" =
      acc ++ ("M0," ++ t ++ "h100v1h-100z") := by
  repeat rw [String.append_assoc]
  refine congrArg _ ?_
  rfl

theorem scanCells_head (w h : ℕ) (hw : 0 < w) (hh : 0 < h) :
    ∃ t, scanCells w h = (0, 0) :: t := by
  obtain ⟨w', rfl⟩ : ∃ w', w = w' + 1 := ⟨w - 1, by omega⟩
  obtain ⟨h', rfl⟩ : ∃ h', h = h' + 1 := ⟨h - 1, by omega⟩
  unfold scanCells
  rw [List.range_succ_eq_map h', List.map_cons, List.flatten_cons,
    List.range_succ_eq_map w', List.map_cons]
  exact ⟨_, rfl⟩

theorem foldl_traceCell_visited (bm : List (List Bool)) (w h : ℕ)
    (color : String) :
    ∀ (cells : List (ℕ × ℕ)) (st : Finset (ℕ × ℕ) × List String),
      (∀ c ∈ cells, (c.1, c.2) ∈ st.1) →
      cells.foldl (traceCell bm w h color) st = st := by
  intro cells
  induction cells with
  | nil => intro st _; rfl
  | cons c cs ih =>
    intro st hvis
    rw [List.foldl_cons]
    have hc : traceCell bm w h color st c = st := by
      unfold traceCell
      rw [if_neg]
      intro hcon
      exact hcon.2 (hvis c (by simp))
    rw [hc]
    exact ih st fun d hd => hvis d (List.mem_cons_of_mem _ hd)

theorem getCell_fullMask {w h x y : ℕ} (hx : x < w) (hy : y < h) :
    getCell (fullMask w h) x y = true := by
  unfold fullMask
  rw [getCell_replicate]
  simp [hx, hy]

theorem fgFinset_fullMask (w h : ℕ) :
    fgFinset (fullMask w h) w h = grid w h := by
  unfold fgFinset
  refine Finset.filter_true_of_mem ?_
  intro c hc
  obtain ⟨h1, h2⟩ := (mem_grid_iff w h c).mp hc
  exact getCell_fullMask h1 h2

theorem reach_fullMask_right (w h : ℕ) (hh : 0 < h) :
    ∀ x, x < w → Reach (fullMask w h) w h (0, 0) (x, 0) := by
  intro x
  induction x with
  | zero => intro _; exact Relation.ReflTransGen.refl
  | succ x ih =>
    intro hx
    refine Relation.ReflTransGen.tail (ih (by omega)) ?_
    exact ⟨by omega, hh, getCell_fullMask (by omega) hh,
      getCell_fullMask hx hh, hx, hh, Or.inl ⟨rfl, rfl⟩⟩

theorem reach_fullMask_down (w h : ℕ) (x : ℕ) (hx : x < w) :
    ∀ y, y < h → Reach (fullMask w h) w h (x, 0) (x, y) := by
  intro y
  induction y with
  | zero => intro _; exact Relation.ReflTransGen.refl
  | succ y ih =>
    intro hy
    refine Relation.ReflTransGen.tail (ih (by omega)) ?_
    exact ⟨hx, by omega, getCell_fullMask hx (by omega),
      getCell_fullMask hx hy, hx, hy, Or.inr (Or.inr (Or.inl ⟨rfl, rfl⟩))⟩

theorem reach_fullMask (w h : ℕ) {x y : ℕ} (hx : x < w) (hy : y < h) :
    Reach (fullMask w h) w h (0, 0) (x, y) :=
  Relation.ReflTransGen.trans
    (reach_fullMask_right w h (by omega) x hx)
    (reach_fullMask_down w h x hx y hy)

theorem fullMask_region_toFinset (w h : ℕ) (hw : 0 < w) (hh : 0 < h) :
    ((floodRegion (fullMask w h) w h ∅ 0 0).1.map cellOf).toFinset =
      grid w h := by
  refine Finset.Subset.antisymm ?_ ?_
  · intro c hc
    have := floodRegion_toFinset_subset (fullMask w h) w h ∅ 0 0 hc
    rw [fgFinset_fullMask] at this
    exact this
  · intro c hc
    obtain ⟨h1, h2⟩ := (mem_grid_iff w h c).mp hc
    have hreach : Reach (fullMask w h) w h (0, 0) (c.1, c.2) :=
      reach_fullMask w h h1 h2
    exact floodRegion_reach_mem (fullMask w h) w h 0 0 hw hh
      (getCell_fullMask hw hh) c hreach

theorem region_int_mem (bm : List (List Bool)) (w h : ℕ) (x y : ℕ)
    {c : ℕ × ℕ}
    (hc : c ∈ ((floodRegion bm w h ∅ x y).1.map cellOf).toFinset) :
    ((c.1 : ℤ), (c.2 : ℤ)) ∈ (floodRegion bm w h ∅ x y).1 := by
  obtain ⟨p, hp, hpc⟩ := List.mem_map.mp (List.mem_toFinset.mp hc)
  obtain ⟨⟨hv1, hv2, hv3, hv4⟩, -, -⟩ :=
    (floodRegion_spec bm w h ∅ x y).2.1 p hp
  obtain ⟨p1, p2⟩ := p
  obtain ⟨cn1, cn2⟩ := c
  have hpc' : p1.toNat = cn1 ∧ p2.toNat = cn2 := by
    simpa [cellOf, Prod.ext_iff] using hpc
  simp only at hv1 hv2 hv3 hv4
  obtain ⟨hpc1, hpc2⟩ := hpc'
  have h1 : p1 = ((cn1 : ℕ) : ℤ) := by omega
  have h2 : p2 = ((cn2 : ℕ) : ℤ) := by omega
  rw [show (((cn1, cn2) : ℕ × ℕ).1 : ℤ) = (cn1 : ℤ) from rfl,
    show (((cn1, cn2) : ℕ × ℕ).2 : ℤ) = (cn2 : ℤ) from rfl, ← h1, ← h2]
  exact hp

theorem fullReg_toFinset :
    ((floodRegion (fullMask 100 100) 100 100 ∅ 0 0).1.map cellOf).toFinset =
      grid 100 100 :=
  fullMask_region_toFinset 100 100 (by norm_num) (by norm_num)

theorem fullReg_length :
    (floodRegion (fullMask 100 100) 100 100 ∅ 0 0).1.length = 10000 := by
  have hnodup := (floodRegion_spec (fullMask 100 100) 100 100 ∅ 0 0).2.2
  have h1 := List.toFinset_card_of_nodup hnodup
  rw [fullReg_toFinset, List.length_map] at h1
  have h2 : (grid 100 100).card = 10000 := by
    unfold grid
    rw [Finset.card_product]
    simp
  omega

theorem fullReg_ne_nil :
    (floodRegion (fullMask 100 100) 100 100 ∅ 0 0).1 ≠ [] := by
  intro hcon
  have := fullReg_length
  rw [hcon] at this
  simp at this

theorem fullReg_mem_int {rx ry : ℤ} (h1 : 0 ≤ rx) (h2 : rx ≤ 99)
    (h3 : 0 ≤ ry) (h4 : ry ≤ 99) :
    (rx, ry) ∈ (floodRegion (fullMask 100 100) 100 100 ∅ 0 0).1 := by
  have hg : (rx.toNat, ry.toNat) ∈ grid 100 100 := by
    rw [mem_grid_iff]
    constructor <;> simp <;> omega
  rw [← fullReg_toFinset] at hg
  have := region_int_mem (fullMask 100 100) 100 100 0 0 hg
  rw [show ((((rx.toNat, ry.toNat) : ℕ × ℕ).1 : ℤ)) = (rx.toNat : ℤ)
    from rfl] at this
  rw [show ((((rx.toNat, ry.toNat) : ℕ × ℕ).2 : ℤ)) = (ry.toNat : ℤ)
    from rfl] at this
  rw [show ((rx.toNat : ℤ)) = rx by omega, show ((ry.toNat : ℤ)) = ry
    by omega] at this
  exact this

theorem fullReg_bounds {p : ℤ × ℤ}
    (hp : p ∈ (floodRegion (fullMask 100 100) 100 100 ∅ 0 0).1) :
    0 ≤ p.1 ∧ p.1 ≤ 99 ∧ 0 ≤ p.2 ∧ p.2 ≤ 99 := by
  obtain ⟨⟨h1, h2, h3, h4⟩, -, -⟩ :=
    (floodRegion_spec (fullMask 100 100) 100 100 ∅ 0 0).2.1 p hp
  refine ⟨h1, by omega, h3, by omega⟩

theorem fullReg_minX :
    listMinI ((floodRegion (fullMask 100 100) 100 100 ∅ 0
      0).1.map Prod.fst) = 0 := by
  have hmem : (0 : ℤ) ∈ (floodRegion (fullMask 100 100) 100 100 ∅ 0
      0).1.map Prod.fst :=
    List.mem_map.mpr ⟨((0 : ℤ), (0 : ℤ)),
      fullReg_mem_int (by norm_num) (by norm_num) (by norm_num)
        (by norm_num), rfl⟩
  refine le_antisymm (listMinI_le hmem) ?_
  have h1 := listMinI_mem (l := (floodRegion (fullMask 100 100) 100 100 ∅ 0
    0).1.map Prod.fst) (by intro hcon; simp at hcon; exact fullReg_ne_nil hcon)
  obtain ⟨p, hp, hpeq⟩ := List.mem_map.mp h1
  rw [← hpeq]
  exact (fullReg_bounds hp).1

theorem fullReg_maxX :
    listMaxI ((floodRegion (fullMask 100 100) 100 100 ∅ 0
      0).1.map Prod.fst) = 99 := by
  have hmem : (99 : ℤ) ∈ (floodRegion (fullMask 100 100) 100 100 ∅ 0
      0).1.map Prod.fst :=
    List.mem_map.mpr ⟨((99 : ℤ), (0 : ℤ)),
      fullReg_mem_int (by norm_num) (by norm_num) (by norm_num)
        (by norm_num), rfl⟩
  refine le_antisymm ?_ (le_listMaxI hmem)
  have h1 := listMaxI_mem (l := (floodRegion (fullMask 100 100) 100 100 ∅ 0
    0).1.map Prod.fst) (by intro hcon; simp at hcon; exact fullReg_ne_nil hcon)
  obtain ⟨p, hp, hpeq⟩ := List.mem_map.mp h1
  rw [← hpeq]
  exact (fullReg_bounds hp).2.1

theorem fullReg_minY :
    listMinI ((floodRegion (fullMask 100 100) 100 100 ∅ 0
      0).1.map Prod.snd) = 0 := by
  have hmem : (0 : ℤ) ∈ (floodRegion (fullMask 100 100) 100 100 ∅ 0
      0).1.map Prod.snd :=
    List.mem_map.mpr ⟨((0 : ℤ), (0 : ℤ)),
      fullReg_mem_int (by norm_num) (by norm_num) (by norm_num)
        (by norm_num), rfl⟩
  refine le_antisymm (listMinI_le hmem) ?_
  have h1 := listMinI_mem (l := (floodRegion (fullMask 100 100) 100 100 ∅ 0
    0).1.map Prod.snd) (by intro hcon; simp at hcon; exact fullReg_ne_nil hcon)
  obtain ⟨p, hp, hpeq⟩ := List.mem_map.mp h1
  rw [← hpeq]
  exact (fullReg_bounds hp).2.2.1

theorem fullReg_maxY :
    listMaxI ((floodRegion (fullMask 100 100) 100 100 ∅ 0
      0).1.map Prod.snd) = 99 := by
  have hmem : (99 : ℤ) ∈ (floodRegion (fullMask 100 100) 100 100 ∅ 0
      0).1.map Prod.snd :=
    List.mem_map.mpr ⟨((0 : ℤ), (99 : ℤ)),
      fullReg_mem_int (by norm_num) (by norm_num) (by norm_num)
        (by norm_num), rfl⟩
  refine le_antisymm ?_ (le_listMaxI hmem)
  have h1 := listMaxI_mem (l := (floodRegion (fullMask 100 100) 100 100 ∅ 0
    0).1.map Prod.snd) (by intro hcon; simp at hcon; exact fullReg_ne_nil hcon)
  obtain ⟨p, hp, hpeq⟩ := List.mem_map.mp h1
  rw [← hpeq]
  exact (fullReg_bounds hp).2.2.2

theorem fullReg_runIsBlack {ry : ℤ} (h3 : 0 ≤ ry) (h4 : ry ≤ 99) (rx : ℤ) :
    runIsBlack (floodRegion (fullMask 100 100) 100 100 ∅ 0 0).1 99 ry rx =
      true ↔ (0 ≤ rx ∧ rx ≤ 99) := by
  unfold runIsBlack
  rw [Bool.and_eq_true, decide_eq_true_eq, List.any_eq_true]
  constructor
  · rintro ⟨hdec, p, hp, hpeq⟩
    rw [Bool.and_eq_true, beq_iff_eq, beq_iff_eq] at hpeq
    obtain ⟨hbx, -, -, -⟩ := fullReg_bounds hp
    rw [hpeq.1] at hbx
    exact ⟨hbx, hdec⟩
  · rintro ⟨h1, h2⟩
    refine ⟨h2, (rx, ry), fullReg_mem_int h1 h2 h3 h4, ?_⟩
    rw [Bool.and_eq_true, beq_iff_eq, beq_iff_eq]
    exact ⟨rfl, rfl⟩

theorem runStep_emit_eq (region : List (ℤ × ℤ)) (maxX ry s : ℤ)
    (acc : String) (rx : ℤ)
    (hpb : runIsBlack region maxX ry rx = false) :
    runStep region maxX ry (true, s, acc) rx =
      (false, s, acc ++ "M" ++ toString s ++ "," ++ toString ry ++ "h" ++
        toString (rx - s) ++ "v1h" ++ toString (s - rx) ++ "z") := by
  unfold runStep
  rw [hpb]
  simp

theorem rowRuns_allBlack (region : List (ℤ × ℤ)) (ry : ℤ) (acc : String)
    (hpb : ∀ rx : ℤ, runIsBlack region 99 ry rx = true ↔
      (0 ≤ rx ∧ rx ≤ 99)) :
    rowRuns region 0 99 ry acc = acc ++ rowStrip ry := by
  have hlist : intRange 0 (99 + 1) =
      0 :: (intRange 1 99 ++ [(100 : ℤ)]) := by decide
  have hpb0 : runIsBlack region 99 ry 0 = true :=
    (hpb 0).mpr ⟨le_refl 0, by norm_num⟩
  have hmid : ∀ rx ∈ intRange 1 99,
      runIsBlack region 99 ry rx = true := by
    intro rx hrx
    have := mem_intRange.mp hrx
    exact (hpb rx).mpr ⟨by omega, by omega⟩
  have hlast : runIsBlack region 99 ry 100 = false := by
    cases hb : runIsBlack region 99 ry 100 with
    | false => rfl
    | true => exact absurd ((hpb 100).mp hb) (by omega)
  unfold rowRuns
  rw [hlist, List.foldl_cons,
    runStep_enter region 99 ry 0 acc 0 hpb0, List.foldl_append,
    foldl_runStep_steady region 99 ry (intRange 1 99) 0 acc hmid]
  rw [show List.foldl (runStep region 99 ry) (true, 0, acc) [(100 : ℤ)] =
    runStep region 99 ry (true, 0, acc) 100 from rfl]
  rw [runStep_emit_eq region 99 ry 0 acc 100 hlast]
  show acc ++ "M" ++ toString (0 : ℤ) ++ "," ++ toString ry ++ "h" ++
      toString ((100 : ℤ) - 0) ++ "v1h" ++ toString ((0 : ℤ) - 100) ++ "z" =
    acc ++ rowStrip ry
  rw [show ((100 : ℤ) - 0) = 100 by norm_num,
    show ((0 : ℤ) - 100) = -100 by norm_num,
    show toString (0 : ℤ) = "0" from rfl,
    show toString (100 : ℤ) = "100" from rfl,
    show toString (-100 : ℤ) = "-100" from rfl]
  unfold rowStrip
  exact strip_assemble acc (toString ry)

theorem regionPathData_allBlack (region : List (ℤ × ℤ))
    (hminX : listMinI (region.map Prod.fst) = 0)
    (hmaxX : listMaxI (region.map Prod.fst) = 99)
    (hminY : listMinI (region.map Prod.snd) = 0)
    (hmaxY : listMaxI (region.map Prod.snd) = 99)
    (hpb : ∀ ry : ℤ, 0 ≤ ry → ry ≤ 99 → ∀ rx : ℤ,
      runIsBlack region 99 ry rx = true ↔ (0 ≤ rx ∧ rx ≤ 99)) :
    regionPathData region = String.join ((intRange 0 99).map rowStrip) := by
  have hf : ∀ ry ∈ intRange 0 99, ∀ acc : String,
      rowRuns region 0 99 ry acc = acc ++ rowStrip ry := by
    intro ry hry acc
    have := mem_intRange.mp hry
    exact rowRuns_allBlack region ry acc (hpb ry this.1 this.2)
  show (intRange (listMinI (region.map Prod.snd))
      (listMaxI (region.map Prod.snd))).foldl
    (fun acc ry => rowRuns region (listMinI (region.map Prod.fst))
      (listMaxI (region.map Prod.fst)) ry acc) "" =
    String.join ((intRange 0 99).map rowStrip)
  rw [hminX, hmaxX, hminY, hmaxY]
  rw [foldl_rows_join (fun acc ry => rowRuns region 0 99 ry acc) rowStrip
    (intRange 0 99) hf ""]
  rfl

theorem fullReg_pathData :
    regionPathData (floodRegion (fullMask 100 100) 100 100 ∅ 0 0).1 =
      String.join ((intRange 0 99).map rowStrip) :=
  regionPathData_allBlack _ fullReg_minX fullReg_maxX fullReg_minY
    fullReg_maxY (fun _ h3 h4 rx => fullReg_runIsBlack h3 h4 rx)

theorem trace_of_head_region (bm : List (List Bool)) (color : String)
    (w h : ℕ) (hw : bmWidth bm = w) (hh : bmHeight bm = h)
    (t : List (ℕ × ℕ)) (hscan : scanCells w h = (0, 0) :: t)
    (hfg : getCell bm 0 0 = true)
    (hlen : 10 < (floodRegion bm w h ∅ 0 0).1.length)
    (hpd : regionPathData (floodRegion bm w h ∅ 0 0).1 ≠ "")
    (vis : Finset (ℕ × ℕ)) (hvq : (floodRegion bm w h ∅ 0 0).2 = vis)
    (hvis : ∀ c ∈ t, (c.1, c.2) ∈ vis) :
    bitmapToSvgPaths bm color =
      [pathElem (regionPathData (floodRegion bm w h ∅ 0 0).1) color] := by
  unfold bitmapToSvgPaths
  rw [hw, hh, hscan, List.foldl_cons]
  have hstep : traceCell bm w h color (∅, []) (0, 0) =
      (vis,
        [pathElem (regionPathData (floodRegion bm w h ∅ 0 0).1) color]) := by
    unfold traceCell
    rw [if_pos ⟨hfg, Finset.not_mem_empty _⟩, if_pos hlen, if_pos hpd, hvq]
    rfl
  rw [hstep]
  exact congrArg Prod.snd (foldl_traceCell_visited bm w h color t
    (vis,
      [pathElem (regionPathData (floodRegion bm w h ∅ 0 0).1) color]) hvis)

/-- Claim C3 — the 100×100 fully-opaque black square at threshold 128
yields the all-foreground 100×100 mask; tracing it finds exactly one
connected region of 10000 cells and emits exactly one path element whose
path data is the concatenation of 100 row-strip commands
`M0,(ry)h100v1h-100z`, one per row `ry = 0..99`, each spanning the full
100-pixel width. -/
theorem black_square_trace_spec :
    imageToBitmap blackSquareImg 128 = fullMask 100 100 ∧
    (floodRegion (fullMask 100 100) 100 100 ∅ 0 0).1.length = 10000 ∧
    bitmapToSvgPaths (fullMask 100 100) "#000000" =
      [pathElem (String.join ((intRange 0 99).map rowStrip)) "#000000"] ∧
    (intRange 0 99).length = 100 := by
  refine ⟨?_, fullReg_length, ?_, by decide⟩
  · have hpix : ∀ x y : ℕ, x < 100 → y < 100 →
        pixelIsBlack blackSquareImg 128 x y = true := by
      intro x y hx hy
      have hproj : ∀ d : List ℕ, (ImageData.mk 100 100 d).data = d :=
        fun d => rfl
      have hdata : blackSquareImg.data = (List.range 40000).map fun i =>
          if i % 4 = 3 then (255 : ℕ) else 0 := by
        unfold blackSquareImg
        rw [hproj]
      have hch0 : chan blackSquareImg.data ((y * 100 + x) * 4) = 0 := by
        unfold chan
        rw [hdata,
          getD_map_range _ _ (show (y * 100 + x) * 4 < 40000 by omega)]
        exact if_neg (by omega)
      have hch1 : chan blackSquareImg.data ((y * 100 + x) * 4 + 1) = 0 := by
        unfold chan
        rw [hdata,
          getD_map_range _ _ (show (y * 100 + x) * 4 + 1 < 40000 by omega)]
        exact if_neg (by omega)
      have hch2 : chan blackSquareImg.data ((y * 100 + x) * 4 + 2) = 0 := by
        unfold chan
        rw [hdata,
          getD_map_range _ _ (show (y * 100 + x) * 4 + 2 < 40000 by omega)]
        exact if_neg (by omega)
      have hch3 : chan blackSquareImg.data ((y * 100 + x) * 4 + 3) = 255 := by
        unfold chan
        rw [hdata,
          getD_map_range _ _ (show (y * 100 + x) * 4 + 3 < 40000 by omega)]
        exact if_pos (by omega)
      show (decide (chan blackSquareImg.data
          ((y * blackSquareImg.width + x) * 4 + 3) > 128) &&
        decide (luminance
          (chan blackSquareImg.data ((y * blackSquareImg.width + x) * 4))
          (chan blackSquareImg.data ((y * blackSquareImg.width + x) * 4 + 1))
          (chan blackSquareImg.data ((y * blackSquareImg.width + x) * 4 + 2))
          < 128)) = true
      rw [show blackSquareImg.width = 100 from rfl]
      rw [hch0, hch1, hch2, hch3]
      simp only [Bool.and_eq_true, decide_eq_true_eq]
      constructor
      · norm_num
      · unfold luminance
        norm_num
    unfold imageToBitmap fullMask
    rw [List.eq_replicate_iff]
    refine ⟨by rw [List.length_map, List.length_range]; rfl, ?_⟩
    intro row hrow
    obtain ⟨y, hy, rfl⟩ := List.mem_map.mp hrow
    rw [List.eq_replicate_iff]
    refine ⟨by rw [List.length_map, List.length_range]; rfl, ?_⟩
    intro b hb
    obtain ⟨x, hx, rfl⟩ := List.mem_map.mp hb
    have hy' : y < 100 := List.mem_range.mp hy
    have hx' : x < 100 := List.mem_range.mp hx
    exact hpix x y hx' hy'
  · obtain ⟨t, ht⟩ := scanCells_head 100 100 (by norm_num) (by norm_num)
    have hveq : (floodRegion (fullMask 100 100) 100 100 ∅ 0 0).2 =
        grid 100 100 :=
      ((floodRegion_spec (fullMask 100 100) 100 100 ∅ 0 0).1).trans
        ((Finset.empty_union _).trans fullReg_toFinset)
    have hvis : ∀ c ∈ t, (c.1, c.2) ∈ grid 100 100 := by
      intro c hc
      rw [mem_grid_iff]
      exact mem_scanCells.mp (by
        rw [ht]
        exact List.mem_cons_of_mem _ hc)
    have hwidth : bmWidth (fullMask 100 100) = 100 := rfl
    have hheight : bmHeight (fullMask 100 100) = 100 := rfl
    have hfg : getCell (fullMask 100 100) 0 0 = true :=
      getCell_fullMask (by norm_num) (by norm_num)
    have hlen : 10 < (floodRegion (fullMask 100 100) 100 100 ∅ 0
        0).1.length := by
      rw [fullReg_length]
      norm_num
    have hpd : regionPathData (floodRegion (fullMask 100 100) 100 100 ∅ 0
        0).1 ≠ "" :=
      regionPathData_ne_empty _ fullReg_ne_nil
    have hA : bitmapToSvgPaths (fullMask 100 100) "#000000" =
        [pathElem (regionPathData (floodRegion (fullMask 100 100) 100 100
          ∅ 0 0).1) "#000000"] :=
      trace_of_head_region (fullMask 100 100) "#000000" 100 100 hwidth
        hheight t ht hfg hlen hpd (grid 100 100) hveq hvis
    have hB : [pathElem (regionPathData (floodRegion (fullMask 100 100)
        100 100 ∅ 0 0).1) "#000000"] =
        [pathElem (String.join ((intRange 0 99).map rowStrip))
          "#000000"] := by
      rw [fullReg_pathData]
    exact hA.trans hB

end BrandGen
